import Mathlib

/-!
Verification of the trie autocomplete demo (`trie-demo.js`).

The JavaScript source is shallowly embedded: JS strings become `String`
(inspected as `List Char`), the per-node child object becomes an
association list in property-insertion order (matching `for..in` /
`Object.keys` enumeration order for single-letter keys), and the mutating
methods become pure functions returning the updated tree.
-/

namespace TrieDemo

/-- Entry record pushed by `_collect`: `{ word: prefix, freq: node.freq, weight: node.weight }`. -/
structure Entry where
  word : String
  freq : Nat
  weight : Nat
deriving Repr, DecidableEq

/-- TrieNode: `children` object (insertion-ordered assoc list), `isEnd`, `freq`,
`weight`, and the `path` string set during insert. -/
inductive TrieNode where
  | mk (children : List (Char × TrieNode)) (isEnd : Bool) (freq : Nat) (weight : Nat) (path : String)

def TrieNode.children : TrieNode → List (Char × TrieNode)
  | .mk c _ _ _ _ => c

def TrieNode.isEnd : TrieNode → Bool
  | .mk _ e _ _ _ => e

def TrieNode.freq : TrieNode → Nat
  | .mk _ _ f _ _ => f

def TrieNode.weight : TrieNode → Nat
  | .mk _ _ _ w _ => w

def TrieNode.path : TrieNode → String
  | .mk _ _ _ _ p => p

/-- A fresh `new TrieNode()`: empty children, `isEnd = false`, `freq = 0`, `weight = 0`, `path = ""`. -/
def TrieNode.new : TrieNode := .mk [] false 0 0 ""

/-- Lookup `node.children[char]` (object property access). -/
def findChild (n : TrieNode) (c : Char) : Option TrieNode :=
  (n.children.find? (fun p => p.1 == c)).map (·.2)

/-- Assignment `node.children[char] = t`: replaces the value of an existing key in
place, otherwise appends the new key (JS property-insertion order). -/
def setChild : List (Char × TrieNode) → Char → TrieNode → List (Char × TrieNode)
  | [], c, t => [(c, t)]
  | (c', t') :: rest, c, t =>
    if c' == c then (c', t) :: rest else (c', t') :: setChild rest c t

/-- Case folding `word.toLowerCase()` viewed as a character list. -/
def lowerChars (s : String) : List Char := s.data.map Char.toLower

/-- Case folding as a string (`word.toLowerCase()`). -/
def lowerStr (s : String) : String := String.mk (lowerChars s)

/-- Body of `Trie.insert`: walk the lowercased characters, creating missing
nodes (each created node gets `path` = the accumulated lowercase fragment);
on the terminal node set `isEnd = true`, `freq += frequency`, `path = word`
(the word exactly as supplied to `insert`). `pathAcc` is the accumulated
lowercase fragment, `w` the original word. -/
def insertGo : TrieNode → List Char → List Char → Nat → String → TrieNode
  | .mk cs _ f wt _, [], _, f0, w => .mk cs true (f + f0) wt w
  | n, c :: rest, pathAcc, f0, w =>
    let pathAcc' := pathAcc ++ [c]
    let child := match findChild n c with
      | some t => t
      | none => .mk [] false 0 0 (String.mk pathAcc')
    .mk (setChild n.children c (insertGo child rest pathAcc' f0 w)) n.isEnd n.freq n.weight n.path

structure Trie where
  root : TrieNode

/-- An empty `new Trie()`. -/
def Trie.empty : Trie := ⟨TrieNode.new⟩

/-- Method `Trie.insert(word, frequency)`. -/
def Trie.insert (t : Trie) (word : String) (frequency : Nat) : Trie :=
  ⟨insertGo t.root (lowerChars word) [] frequency word⟩

/-- Walk a character path from a node, returning `none` where the path breaks.
This is the shared walking loop of `autocomplete`, `getNode`,
`highlightWordInSVG` and `highlightPrefix`. -/
def walkPrefix : TrieNode → List Char → Option TrieNode
  | n, [] => some n
  | n, c :: cs =>
    match findChild n c with
    | none => none
    | some m => walkPrefix m cs

/-- Method `Trie.getNode(word)`: exact-path walk over the lowercased word,
`null` (here `none`) on a miss. -/
def Trie.getNode (t : Trie) (word : String) : Option TrieNode :=
  walkPrefix t.root (lowerChars word)

mutual
/-- Method `Trie._collect(node, prefix)`: the entry for this node first (if
`isEnd`), then the children in `for..in` (insertion) order. -/
def collect : TrieNode → List Char → List Entry
  | .mk cs e f w _, pre =>
    (if e then [⟨String.mk pre, f, w⟩] else []) ++ collectChildren cs pre

/-- Collection over the child list of `_collect`. -/
def collectChildren : List (Char × TrieNode) → List Char → List Entry
  | [], _ => []
  | (c, t) :: rest, pre => collect t (pre ++ [c]) ++ collectChildren rest pre
end

/-- Combined score used by the sort comparator in `autocomplete`. The
comparator text is `(b.freq + (b.weight||0)) - (a.freq + a.weight||0)`; since
`+` binds tighter than `||` and both fields are always numbers, both sides
reduce to `freq + weight`. -/
def score (e : Entry) : Nat := e.freq + e.weight

/-- Distinct scores occurring in a result list, in descending order. -/
def scoresDesc (l : List Entry) : List Nat :=
  List.insertionSort (· ≥ ·) (l.map score).dedup

/-- Result of `results.sort(comparator)` for the score comparator:
ECMAScript `Array.prototype.sort` is stable and sorts consistently with the
comparator, so the result is the unique permutation grouped by strictly
descending score that keeps the original order inside each equal-score
group. We define that permutation directly. Note: in `trie-demo.js` the
written tiebreak `|| a.word.localeCompare(b.word)` and the final
`.map(x => x.word)` sit syntactically outside the sort callback (the
callback closes after the score subtraction), so they are dead code: the
comparator compares scores only and the sorted entry records themselves are
returned. -/
def sortEntries (l : List Entry) : List Entry :=
  (scoresDesc l).flatMap (fun s => l.filter (fun e => score e = s))

/-- Method `Trie.autocomplete(prefix)` as written in `trie-demo.js`:
lowercase the query, walk it (empty list on a break), collect the subtree,
and sort by the score comparator. Because the `.map(x => x.word)` is outside
the sort callback and short-circuited away by `||`, the returned sequence
consists of the entry records, not bare words. -/
def Trie.autocomplete (t : Trie) (pre : String) : List Entry :=
  let p := lowerChars pre
  match walkPrefix t.root p with
  | none => []
  | some n => sortEntries (collect n p)

/-- The word components of an autocomplete result (what the `.map(x => x.word)`
was meant to produce, and what the UI reads off each suggestion entry). -/
def Trie.autocompleteWords (t : Trie) (pre : String) : List String :=
  (t.autocomplete pre).map Entry.word

/-- Loading a word list: `words.forEach(w => trie.insert(w))` with the default
frequency 1, starting from `new Trie()`. -/
def buildTrie (ws : List String) : Trie :=
  ws.foldl (fun t w => t.insert w 1) Trie.empty

/-- Selection weight bump from the suggestion click / Enter handlers:
`const node = trie.getNode(word); if (node) node.weight = (node.weight||0) + 1`,
as a pure tree update along the lowercased word path (no-op when the walk
breaks, mirroring the `if (node)` guard). -/
def bumpAt : TrieNode → List Char → TrieNode
  | .mk cs e f w p, [] => .mk cs e f (w + 1) p
  | n, c :: rest =>
    match findChild n c with
    | none => n
    | some m => .mk (setChild n.children c (bumpAt m rest)) n.isEnd n.freq n.weight n.path

/-- The state of the trie after one selection event on `word`. -/
def Trie.bumpWeight (t : Trie) (word : String) : Trie :=
  ⟨bumpAt t.root (lowerChars word)⟩

/-- Walking loop of `highlightWordInSVG` (and of `highlightPrefix`): descend
along the characters, recording each node reached; on a missing child stop
and return what was visited so far (`return` / `break` in the source). -/
def highlightWalk : TrieNode → List Char → List TrieNode
  | _, [] => []
  | n, c :: cs =>
    match findChild n c with
    | none => []
    | some m => m :: highlightWalk m cs

/-- Function `highlightWordInSVG(word)`: the sequence of nodes that receive
the accent fill and pulse class, namely the nodes visited by the walk over
the lowercased word until the path breaks. -/
def Trie.highlightWordInSVG (t : Trie) (word : String) : List TrieNode :=
  highlightWalk t.root (lowerChars word)

/-!
Layout engine of `drawTrieSVG` (`trie-demo.js`), the recursive
`layout(node, depth, x, parentLetter)` pass: leaves occupy width 1, an
internal node lays out its children in sorted key order at
`childX += childWidth * 70` offsets and centers itself at
`x + (totalWidth * 70 - 70) / 2`, returning all positions (children first,
own position last) together with the subtree width.
-/

/-- One LayoutPosition `{ node, x, depth, letter }` (`letter` is the
incoming-edge label, empty for the root — modelled as `none`). -/
structure Pos where
  node : TrieNode
  x : Nat
  depth : Nat
  letter : Option Char

/-- Key order used by `Object.keys(node.children).sort()` together with the
subsequent `node.children[key]` lookups: the child list in ascending key
order. -/
def sortChildren (cs : List (Char × TrieNode)) : List (Char × TrieNode) :=
  List.insertionSort (fun a b => a.1 ≤ b.1) cs

instance decRelKeyLe : DecidableRel (fun (a b : Char × TrieNode) => a.1 ≤ b.1) :=
  fun a b => inferInstanceAs (Decidable (a.1 ≤ b.1))

instance totalKeyLe : IsTotal (Char × TrieNode) (fun a b => a.1 ≤ b.1) :=
  ⟨fun a b => le_total a.1 b.1⟩

instance transKeyLe : IsTrans (Char × TrieNode) (fun a b => a.1 ≤ b.1) :=
  ⟨fun _ _ _ h₁ h₂ => le_trans h₁ h₂⟩

/-- Permuting a list preserves its `sizeOf` (used for layout termination,
since the children are traversed in sorted order). -/
theorem sizeOf_perm {α : Type} [SizeOf α] {l₁ l₂ : List α} (h : l₁.Perm l₂) :
    sizeOf l₁ = sizeOf l₂ := by
  induction h with
  | nil => rfl
  | cons x _ ih => simp [ih]
  | swap x y l => simp; omega
  | trans _ _ ih₁ ih₂ => omega

mutual
/-- Function `layout(node, depth, x, parentLetter)`: returns
`(positions, width)`. -/
def layout : TrieNode → Nat → Nat → Option Char → (List Pos × Nat)
  | .mk cs e f w p, depth, x, pl =>
    match h : sortChildren cs with
    | [] => ([⟨.mk cs e f w p, x, depth, pl⟩], 1)
    | kc :: rest =>
      let r := layoutList (kc :: rest) (depth + 1) x
      (r.1 ++ [⟨.mk cs e f w p, x + (r.2.2 * 70 - 70) / 2, depth, pl⟩], r.2.2)
termination_by n _ _ _ => sizeOf n
decreasing_by
  have hp : (sortChildren cs).Perm cs := List.perm_insertionSort _ cs
  have hs := sizeOf_perm hp
  rw [h] at hs
  simp only [TrieNode.mk.sizeOf_spec]
  omega

/-- The `keys.forEach` loop of `layout`: lays out each child at the running
`childX`, advancing it by `childWidth * 70` and accumulating `totalWidth`;
returns `(positions, finalChildX, totalWidth)`. -/
def layoutList : List (Char × TrieNode) → Nat → Nat → (List Pos × Nat × Nat)
  | [], _, childX => ([], childX, 0)
  | (k, c) :: rest, depth, childX =>
    let rc := layout c depth childX (some k)
    let rr := layoutList rest depth (childX + rc.2 * 70)
    (rc.1 ++ rr.1, rr.2.1, rc.2 + rr.2.2)
termination_by l _ _ => sizeOf l
decreasing_by
  · simp
    omega
  · simp
end

/-- Top-level call `layout(trie.root)` (depth 0, x 0, empty parent letter). -/
def Trie.layoutRoot (t : Trie) : List Pos × Nat :=
  layout t.root 0 0 none

/-!
Interaction coordinator: the `input` listener rebuilds the suggestion list,
and the `keydown` listener moves the module-level `selectedIndex` over the
currently rendered `li` items with wrap-around, committing on Enter.
-/

/-- Navigation state: the rendered suggestion items and the module-level
`selectedIndex` (initially `-1`). -/
structure NavState where
  items : List String
  selectedIndex : Int
deriving Repr, DecidableEq

/-- Events handled by the two listeners: a query change (carrying the list of
items the `input` handler renders for the new query), the two arrow keys,
and Enter. -/
inductive NavEvent where
  | queryChange (newItems : List String)
  | arrowDown
  | arrowUp
  | enter

/-- One step of the listeners. The `input` handler replaces the rendered
items and touches nothing else (in particular it never writes
`selectedIndex`). The `keydown` handler returns early when no items are
rendered; ArrowDown/ArrowUp update `selectedIndex` with the JS `%`
(truncating remainder, `Int.tmod`); Enter with a non-negative index reads
`items[selectedIndex].innerText` first: when the index is inside the list
it commits, clears the list and resets `selectedIndex` to `-1`, but when
the index is past the end `items[selectedIndex]` is `undefined` and the
`.innerText` access throws a `TypeError` before any assignment runs, so
the state is left exactly as it was (the uncaught exception is recorded by
`navThrows`). -/
def navStep (s : NavState) : NavEvent → NavState
  | .queryChange its => { items := its, selectedIndex := s.selectedIndex }
  | .arrowDown =>
    if s.items.length = 0 then s
    else { s with selectedIndex := (s.selectedIndex + 1).tmod s.items.length }
  | .arrowUp =>
    if s.items.length = 0 then s
    else { s with selectedIndex := (s.selectedIndex - 1 + s.items.length).tmod s.items.length }
  | .enter =>
    if s.items.length = 0 then s
    else if 0 ≤ s.selectedIndex then
      match s.items.get? s.selectedIndex.toNat with
      | some _ => { items := [], selectedIndex := -1 }
      | none => s
    else s

/-- The event raises an uncaught `TypeError`: only the Enter branch can,
when it dereferences `items[selectedIndex]` (which is `undefined` for a
leftover index at or past the end of the current list) for `.innerText`. -/
def navThrows (s : NavState) : NavEvent → Bool
  | .enter =>
    if s.items.length = 0 then false
    else if 0 ≤ s.selectedIndex then (s.items.get? s.selectedIndex.toNat).isNone
    else false
  | _ => false

/-- The word committed by Enter (`items[selectedIndex].innerText`), when the
Enter branch is taken; `none` if the branch is not reached. An index past
the end of the current items is a JS `TypeError` in the source, surfaced
here as `none` from `get?`. -/
def navCommit (s : NavState) : Option String :=
  if s.items.length = 0 then none
  else if 0 ≤ s.selectedIndex then s.items.get? s.selectedIndex.toNat else none

/-- Initial coordinator state: no items, `selectedIndex = -1`. -/
def navInit : NavState := ⟨[], -1⟩

/-- Folding a sequence of events from a state. -/
def navRun (s : NavState) (evs : List NavEvent) : NavState :=
  evs.foldl navStep s

/-- The child taken by one step of `insert`: the existing
`node.children[char]`, or the freshly created node (with `path` set to the
accumulated lowercase fragment). -/
def insChild (n : TrieNode) (c : Char) (pa : List Char) : TrieNode :=
  match findChild n c with
  | some t => t
  | none => .mk [] false 0 0 (String.mk (pa ++ [c]))

/-- Addition of a frequency at the node reached by a character path,
changing nothing else (comparison shape for claim C3: "structure unchanged,
frequency accumulated"; the spine is rebuilt with the same keys). -/
def specAddFreq : TrieNode → List Char → Nat → TrieNode
  | .mk cs e f w p, [], f0 => .mk cs e (f + f0) w p
  | n, c :: rest, f0 =>
    match findChild n c with
    | none => n
    | some m => .mk (setChild n.children c (specAddFreq m rest f0)) n.isEnd n.freq n.weight n.path

/-- Well-formedness of tries: a JS object cannot hold two properties with
the same key, so every child list reachable in a real trie has pairwise
distinct keys. This holds for every trie built with `insert` and is
preserved by the mutating operations. -/
inductive WF : TrieNode → Prop where
  | mk : ∀ (cs : List (Char × TrieNode)) (e : Bool) (f w : Nat) (p : String),
      (cs.map Prod.fst).Nodup → (∀ kc ∈ cs, WF kc.2) → WF (.mk cs e f w p)

/-- Entry update performed (at the tree level) by one selection event on
the word `target`: the weight of the matching entry increases by one,
every other entry is unchanged. -/
def bumpEntry (target : String) (e : Entry) : Entry :=
  if e.word = target then ⟨e.word, e.freq, e.weight + 1⟩ else e

/-- Rank of the word `w` in a (sorted) result list: the index of its entry
(`length` when absent). -/
def rankOf (l : List Entry) (w : String) : Nat :=
  l.findIdx (fun e => e.word == w)

/-- Subtree width assigned by the layout pass (independent of the starting
coordinates, see `layout_width_const`). -/
def width (n : TrieNode) : Nat := (layout n 0 0 none).2

/-- The x coordinate `layout` assigns to the node itself when the subtree
is laid out starting at `x`: `x` for a leaf, the centered
`x + (width * 70 - 70) / 2` otherwise. -/
def selfX (n : TrieNode) (x : Nat) : Nat :=
  if (sortChildren n.children).isEmpty then x else x + (width n * 70 - 70) / 2

/-- The x coordinates of the children's own nodes, in sorted key order,
when the enumeration starts at `cx`: each child is laid out at the running
offset, which then advances by `width * 70`. -/
def childXs : List (Char × TrieNode) → Nat → List Nat
  | [], _ => []
  | (_, c) :: rest, cx => selfX c cx :: childXs rest (cx + width c * 70)

/-!
Basic lemmas about child lookup and assignment.
-/

theorem findChild_mk (cs : List (Char × TrieNode)) (e : Bool) (f w : Nat) (p : String) (c : Char) :
    findChild (.mk cs e f w p) c = ((cs.find? (fun q => q.1 == c)).map (·.2)) := rfl

theorem find?_setChild_self (cs : List (Char × TrieNode)) (c : Char) (t : TrieNode) :
    (setChild cs c t).find? (fun q => q.1 == c) = some (c, t) := by
  induction cs with
  | nil => simp [setChild]
  | cons hd tl ih =>
    obtain ⟨c', t'⟩ := hd
    by_cases h : c' = c
    · subst h
      simp [setChild]
    · have hb : (c' == c) = false := by simp [h]
      simp [setChild, hb, ih]

theorem find?_setChild_ne (cs : List (Char × TrieNode)) (c a : Char) (t : TrieNode)
    (h : a ≠ c) :
    (setChild cs c t).find? (fun q => q.1 == a) = cs.find? (fun q => q.1 == a) := by
  induction cs with
  | nil =>
    have hb : (c == a) = false := beq_eq_false_iff_ne.mpr (Ne.symm h)
    simp [setChild, hb]
  | cons hd tl ih =>
    obtain ⟨c', t'⟩ := hd
    by_cases hc : c' = c
    · subst hc
      have hb : (c' == a) = false := beq_eq_false_iff_ne.mpr (Ne.symm h)
      simp [setChild, hb]
    · have hb : (c' == c) = false := beq_eq_false_iff_ne.mpr hc
      by_cases ha : c' = a
      · subst ha
        simp [setChild, hb]
      · have hb' : (c' == a) = false := beq_eq_false_iff_ne.mpr ha
        simp [setChild, hb, hb', ih]

theorem walkPrefix_append (p q : List Char) : ∀ n : TrieNode,
    walkPrefix n (p ++ q) = (walkPrefix n p).bind (fun m => walkPrefix m q) := by
  induction p with
  | nil => intro n; simp [walkPrefix]
  | cons c p ih =>
    intro n
    simp only [List.cons_append, walkPrefix]
    cases findChild n c with
    | none => simp
    | some m => simpa using ih m

/-- Walking the freshly inserted path from the insertion root reaches a
terminal node whose `isEnd` is set and whose `path` is the original word. -/
theorem insertGo_walk_self (cs : List Char) : ∀ (n : TrieNode) (pa : List Char) (f0 : Nat)
    (w : String), ∃ m, walkPrefix (insertGo n cs pa f0 w) cs = some m ∧
      m.isEnd = true ∧ m.path = w := by
  induction cs with
  | nil =>
    intro n pa f0 w
    obtain ⟨cs', e, f, wt, p⟩ := n
    exact ⟨_, rfl, rfl, rfl⟩
  | cons c rest ih =>
    intro n pa f0 w
    obtain ⟨m, hm, hend, hpath⟩ :=
      ih (match findChild n c with
          | some t => t
          | none => .mk [] false 0 0 (String.mk (pa ++ [c]))) (pa ++ [c]) f0 w
    refine ⟨m, ?_, hend, hpath⟩
    simp only [insertGo, walkPrefix, findChild_mk, find?_setChild_self, Option.map_some]
    exact hm

/-!
Claim C5. The terminal node `path` after `insert`: the source executes
`node.path = word` with the word exactly as supplied to `insert`, while the
lowercased form is used only to choose the character path. The spec instead
asserts that the case-folded word is stored.
-/

/-- Claim C5 counterexample: inserting `"CAT"` stores `path = "CAT"` on the
terminal node (reached by the case-folded path `"cat"`), which differs from
the case-folded word `"cat"` asserted by the claim. -/
theorem C5_counterexample :
    ((buildTrie ["CAT"]).getNode "cat").map TrieNode.path = some "CAT" ∧
      lowerStr "CAT" = "cat" ∧ ("CAT" : String) ≠ "cat" := by
  refine ⟨by decide, by decide, by decide⟩

/-- Claim C5 as amended: `insert(W)` sets the terminal node's cached path
field to W exactly as supplied (case folding is applied only to the walk);
for already-lowercase words this coincides with the case-folded word. -/
theorem C5_path_as_supplied (t : Trie) (w : String) (f : Nat) :
    ((t.insert w f).getNode w).map TrieNode.path = some w := by
  obtain ⟨m, hm, _, hpath⟩ := insertGo_walk_self (lowerChars w) t.root [] f w
  simp [Trie.getNode, Trie.insert, hm, hpath]

/-!
Claim C10. `getNode("")` returns the root itself, never the `null` miss
sentinel, and the root `isEnd` flag is set exactly when the empty word was
inserted.
-/

theorem lowerChars_eq_nil_iff (w : String) : lowerChars w = [] ↔ w = "" := by
  constructor
  · intro h
    have hd : w.data = [] := List.eq_nil_of_map_eq_nil h
    exact String.ext hd
  · intro h
    subst h
    rfl

theorem root_isEnd_insert (t : Trie) (w : String) (f : Nat) :
    ((t.insert w f).root.isEnd = true) ↔ (t.root.isEnd = true ∨ w = "") := by
  obtain ⟨n⟩ := t
  obtain ⟨cs, e, fr, wt, p⟩ := n
  rcases h : lowerChars w with _ | ⟨c, rest⟩
  · have hw : w = "" := (lowerChars_eq_nil_iff w).mp h
    subst hw
    simp [Trie.insert, insertGo, TrieNode.isEnd, lowerChars]
  · have hw : ¬ w = "" := by
      intro hw
      subst hw
      simp [lowerChars] at h
    simp [Trie.insert, h, insertGo, TrieNode.isEnd, hw]

theorem root_isEnd_foldl (ws : List String) : ∀ t : Trie,
    ((ws.foldl (fun t w => t.insert w 1) t).root.isEnd = true) ↔
      (t.root.isEnd = true ∨ "" ∈ ws) := by
  induction ws with
  | nil => intro t; simp
  | cons w ws ih =>
    intro t
    rw [List.foldl_cons, ih, root_isEnd_insert]
    constructor
    · rintro ((h | h) | h)
      · exact Or.inl h
      · exact Or.inr (by simp [h])
      · exact Or.inr (by simp [h])
    · rintro (h | h)
      · exact Or.inl (Or.inl h)
      · rcases List.mem_cons.mp h with h | h
        · exact Or.inl (Or.inr h.symm)
        · exact Or.inr h

/-- Claim C10: `getNode("")` returns the root node itself (not the `null`
miss sentinel) on every trie, and the root's `isEnd` flag is true exactly
when the empty word was one of the inserted words. -/
theorem C10_getNode_empty :
    (∀ t : Trie, t.getNode "" = some t.root) ∧
      (∀ ws : List String, ((buildTrie ws).root.isEnd = true ↔ "" ∈ ws)) := by
  constructor
  · intro t
    rfl
  · intro ws
    have := root_isEnd_foldl ws Trie.empty
    simpa [buildTrie, Trie.empty, TrieNode.new, TrieNode.isEnd] using this

/-!
Claim C1. In `trie-demo.js` the sort line reads
`.sort((a, b) => ((b.freq + (b.weight||0)) - (a.freq + a.weight||0))) || a.word.localeCompare(b.word)`
followed by `.map(x => x.word)` on the next line: the arrow callback closes
after the score subtraction, so the lexicographic tiebreak and the
projection to words are outside the callback and, the sorted array being
truthy, are never evaluated. Ties of the combined score therefore stay in
depth-first collection (insertion) order. The code comment promises a list
of words, and the other variant of the file in the repository has the
parenthesis in the intended place.
-/

/-- Claim C1 evaluated at the failing input: after inserting `"cb"` then
`"ca"` (equal frequency 1, weight 0, hence equal combined score 1),
`autocomplete("c")` keeps the insertion order `["cb", "ca"]` — not the
ascending lexicographic order `["ca", "cb"]` the claim asserts for ties. -/
theorem C1_tie_order :
    ((buildTrie ["cb", "ca"]).autocomplete "c").map Entry.word = ["cb", "ca"] ∧
      ((buildTrie ["cb", "ca"]).autocomplete "c").map score = [1, 1] ∧
      ((buildTrie ["cb", "ca"]).autocomplete "c").map Entry.word ≠ ["ca", "cb"] := by
  refine ⟨by decide, by decide, by decide⟩

/-!
Claim C6. The `input` listener rebuilds the suggestion list but never
writes `selectedIndex`; only a successful Enter commit resets it to `-1`.
A selection index left over from a previous list therefore survives a
query change; if the leftover index is past the end of the new list, Enter
throws a `TypeError` at `items[selectedIndex].innerText` before any
assignment, so even then nothing is reset.
-/

/-- Claim C6 counterexample: type a query with two suggestions, press
ArrowDown twice (index 1), then change the query; the new list is rendered
while `selectedIndex` is still `1`, and Enter immediately commits the new
list's item at the leftover index. -/
theorem C6_counterexample :
    (navRun navInit [.queryChange ["a", "b"], .arrowDown, .arrowDown,
        .queryChange ["x", "y", "z"]]).selectedIndex = 1 ∧
      (navRun navInit [.queryChange ["a", "b"], .arrowDown, .arrowDown,
        .queryChange ["x", "y", "z"]]).selectedIndex ≠ -1 ∧
      navCommit (navRun navInit [.queryChange ["a", "b"], .arrowDown, .arrowDown,
        .queryChange ["x", "y", "z"]]) = some "y" := by
  refine ⟨by decide, by decide, by decide⟩

/-- Claim C6 as amended: a query change replaces the rendered items but does
NOT reset `selectedIndex` — the leftover value persists into the new list.
`selectedIndex` is reset to the `-1` sentinel only by a successful Enter
commit, i.e. when the (possibly leftover) index lies inside the current
list; when it lies at or past the end, `items[selectedIndex]` is
`undefined` and the `.innerText` access throws a `TypeError` before any
assignment runs, so the handler aborts with the items and the un-reset
index exactly as they were. -/
theorem C6_no_reset :
    (∀ (s : NavState) (its : List String),
        navStep s (.queryChange its) = ⟨its, s.selectedIndex⟩) ∧
      (∀ s : NavState, s.items ≠ [] → 0 ≤ s.selectedIndex →
        s.selectedIndex.toNat < s.items.length →
        navStep s .enter = ⟨[], -1⟩ ∧ navThrows s .enter = false) ∧
      (∀ s : NavState, s.items ≠ [] → 0 ≤ s.selectedIndex →
        s.items.length ≤ s.selectedIndex.toNat →
        navStep s .enter = s ∧ navThrows s .enter = true) := by
  refine ⟨fun s its => rfl, ?_, ?_⟩
  · intro s h h0 hlt
    have hl : ¬ s.items.length = 0 := by simpa using h
    obtain ⟨v, hsome⟩ : ∃ v, s.items[s.selectedIndex.toNat]? = some v :=
      ⟨_, List.getElem?_eq_getElem hlt⟩
    have hsome' : s.items.get? s.selectedIndex.toNat = some v := by
      rw [List.get?_eq_getElem?]; exact hsome
    constructor
    · simp only [navStep]
      rw [if_neg hl, if_pos h0, hsome']
    · simp only [navThrows]
      rw [if_neg hl, if_pos h0, hsome']
      rfl
  · intro s h h0 hge
    have hl : ¬ s.items.length = 0 := by simpa using h
    have hnone : s.items[s.selectedIndex.toNat]? = none := List.getElem?_eq_none hge
    have hnone' : s.items.get? s.selectedIndex.toNat = none := by
      rw [List.get?_eq_getElem?]; exact hnone
    constructor
    · simp only [navStep]
      rw [if_neg hl, if_pos h0, hnone']
    · simp only [navThrows]
      rw [if_neg hl, if_pos h0, hnone']
      rfl

theorem C6_no_reset_witness :
    (((NavState.mk ["a"] 0).items ≠ [] ∧ (0 : Int) ≤ (NavState.mk ["a"] 0).selectedIndex ∧
        (NavState.mk ["a"] 0).selectedIndex.toNat < (NavState.mk ["a"] 0).items.length) ∧
      navStep ⟨["a"], 0⟩ .enter = ⟨[], -1⟩ ∧ navThrows ⟨["a"], 0⟩ .enter = false) ∧
    (((NavState.mk ["x", "y"] 5).items ≠ [] ∧
        (0 : Int) ≤ (NavState.mk ["x", "y"] 5).selectedIndex ∧
        (NavState.mk ["x", "y"] 5).items.length ≤ (NavState.mk ["x", "y"] 5).selectedIndex.toNat) ∧
      navStep ⟨["x", "y"], 5⟩ .enter = ⟨["x", "y"], 5⟩ ∧
        navThrows ⟨["x", "y"], 5⟩ .enter = true) :=
  ⟨⟨⟨by decide, by decide, by decide⟩,
      C6_no_reset.2.1 ⟨["a"], 0⟩ (by decide) (by decide) (by decide)⟩,
    ⟨⟨by decide, by decide, by decide⟩,
      C6_no_reset.2.2 ⟨["x", "y"], 5⟩ (by decide) (by decide) (by decide)⟩⟩

/-!
Claim C7. Arrow-key navigation: with a non-empty rendered list of length L
and any current index `i ≥ -1`, ArrowDown moves to `(i+1) mod L` and
ArrowUp to `(i-1+L) mod L` (JS truncating `%` agrees with the euclidean
`mod` on every reachable input), and with no rendered items both keys
return early leaving the state unchanged.
-/

theorem tmod_eq_emod_of_reachable (d L : Int) (hL : 1 ≤ L) (hd : L - 2 ≤ d) :
    d.tmod L = d % L := by
  rcases lt_or_le d 0 with hneg | hpos
  · have h1 : L = 1 := by omega
    subst h1
    rw [Int.tmod_one, Int.emod_one]
  · exact Int.tmod_eq_emod hpos (by omega)

/-- Claim C7: on a non-empty suggestion list of length L and any current
index `i ≥ -1` (including the `-1` sentinel), ArrowDown sets the index to
`(i+1) mod L` and ArrowUp to `(i-1+L) mod L`, both leaving the items
unchanged; on an empty list both keys are no-ops. -/
theorem C7_wraparound (s : NavState) :
    (s.items ≠ [] → -1 ≤ s.selectedIndex →
      navStep s .arrowDown =
          { s with selectedIndex := (s.selectedIndex + 1) % (s.items.length : Int) } ∧
        navStep s .arrowUp =
          { s with selectedIndex := (s.selectedIndex - 1 + s.items.length) % (s.items.length : Int) }) ∧
      (s.items = [] → navStep s .arrowDown = s ∧ navStep s .arrowUp = s) := by
  constructor
  · intro h hi
    have hl : ¬ s.items.length = 0 := by simpa using h
    have hL : 1 ≤ (s.items.length : Int) := by
      have : 1 ≤ s.items.length := Nat.one_le_iff_ne_zero.mpr hl
      exact_mod_cast this
    constructor
    · simp only [navStep, hl, if_false]
      rw [Int.tmod_eq_emod (by omega) (by omega)]
    · simp only [navStep, hl, if_false]
      rw [tmod_eq_emod_of_reachable _ _ hL (by omega)]
  · intro h
    have hl : s.items.length = 0 := by simp [h]
    constructor <;> simp [navStep, hl]

theorem C7_wraparound_witness :
    ((NavState.mk ["a", "b", "c"] (-1)).items ≠ [] ∧
        -1 ≤ (NavState.mk ["a", "b", "c"] (-1)).selectedIndex) ∧
      (navStep ⟨["a", "b", "c"], -1⟩ .arrowDown =
          { items := ["a", "b", "c"], selectedIndex := ((-1) + 1) % ((3 : Nat) : Int) } ∧
        navStep ⟨["a", "b", "c"], -1⟩ .arrowUp =
          { items := ["a", "b", "c"], selectedIndex := ((-1) - 1 + (3 : Nat)) % ((3 : Nat) : Int) }) :=
  ⟨⟨by decide, by decide⟩,
    (C7_wraparound ⟨["a", "b", "c"], -1⟩).1 (by decide) (by decide)⟩

/-!
Claim C3. A second `insert` of the same word finds every node of its path
already present, so it creates nothing and only revisits the existing
spine: the resulting tree equals the old one with the given frequency added
at the terminal node (`isEnd` was already true and `path` is rewritten to
the same word).
-/

theorem insertGo_twice (cs : List Char) : ∀ (n : TrieNode) (pa : List Char) (f f0 : Nat)
    (w : String),
    insertGo (insertGo n cs pa f w) cs pa f0 w = specAddFreq (insertGo n cs pa f w) cs f0 := by
  induction cs with
  | nil =>
    intro n pa f f0 w
    obtain ⟨cs', e, fr, wt, p⟩ := n
    simp [insertGo, specAddFreq, Nat.add_assoc]
  | cons c rest ih =>
    intro n pa f f0 w
    simp only [insertGo, specAddFreq, findChild_mk, find?_setChild_self, Option.map,
      TrieNode.children, TrieNode.isEnd, TrieNode.freq, TrieNode.weight, TrieNode.path]
    rw [ih]

/-- Claim C3: inserting the same word a second time leaves the tree
structure unchanged and only adds the given frequency at the terminal node
(the whole second insert equals a pure frequency addition on the first
result); concretely, two default inserts of "cat" leave the word component
of `search("cat")` at `["cat"]` with terminal frequency 2. -/
theorem C3_insert_twice :
    (∀ (t : Trie) (w : String) (f f0 : Nat),
        (t.insert w f).insert w f0 = ⟨specAddFreq (t.insert w f).root (lowerChars w) f0⟩) ∧
      ((buildTrie ["cat", "cat"]).autocompleteWords "cat" = ["cat"] ∧
        ((buildTrie ["cat", "cat"]).getNode "cat").map TrieNode.freq = some 2) := by
  refine ⟨?_, by decide, by decide⟩
  intro t w f f0
  exact congrArg Trie.mk (insertGo_twice (lowerChars w) t.root [] f f0 w)

/-!
Claim C8. The highlight walk (`highlightWordInSVG`, and the same loop in
`highlightPrefix`) stops silently at the first missing child, emphasizing
exactly the nodes along the longest existing prefix of the requested
string. It therefore emphasizes zero nodes only when already the first
character has no child at the root — a trie may contain no word starting
with "xyz" and still have nodes for "x" and "xy", which the claim's
"emphasizes zero nodes" wording contradicts.
-/

/-- Claim C8 counterexample: the trie containing only "xa" has no word
starting with "xyz", yet `highlight("xyz")` emphasizes one node (the node
of "x"), not zero. -/
theorem C8_counterexample :
    (∀ w ∈ ["xa"], ¬ (lowerChars "xyz" <+: lowerChars w)) ∧
      ((buildTrie ["xa"]).highlightWordInSVG "xyz").length = 1 := by
  refine ⟨by decide, by decide⟩

theorem highlightWalk_spec (cs : List Char) : ∀ n : TrieNode,
    (highlightWalk n cs).length ≤ cs.length ∧
      (∀ k, k ≤ (highlightWalk n cs).length → (walkPrefix n (cs.take k)).isSome = true) ∧
      ((highlightWalk n cs).length < cs.length →
        walkPrefix n (cs.take ((highlightWalk n cs).length + 1)) = none) := by
  induction cs with
  | nil =>
    intro n
    refine ⟨le_refl _, ?_, ?_⟩
    · intro k hk
      have hk0 : k = 0 := by simpa [highlightWalk] using hk
      subst hk0
      simp [walkPrefix]
    · intro h
      simp [highlightWalk] at h
  | cons c rest ih =>
    intro n
    cases hfc : findChild n c with
    | none =>
      have hw : highlightWalk n (c :: rest) = [] := by simp [highlightWalk, hfc]
      refine ⟨by simp [hw], ?_, ?_⟩
      · intro k hk
        have hk0 : k = 0 := by simpa [hw] using hk
        subst hk0
        simp [walkPrefix]
      · intro _
        simp [hw, walkPrefix, hfc]
    | some m =>
      have hw : highlightWalk n (c :: rest) = m :: highlightWalk m rest := by
        simp [highlightWalk, hfc]
      obtain ⟨ih1, ih2, ih3⟩ := ih m
      refine ⟨by simp [hw]; omega, ?_, ?_⟩
      · intro k hk
        cases k with
        | zero => simp [walkPrefix]
        | succ j =>
          have hj : j ≤ (highlightWalk m rest).length := by
            simp [hw] at hk
            omega
          have := ih2 j hj
          simpa [walkPrefix, hfc] using this
      · intro hlt
        have hlt' : (highlightWalk m rest).length < rest.length := by
          simp [hw] at hlt ⊢
          omega
        have := ih3 hlt'
        simp only [hw, List.length_cons]
        have hshape : (highlightWalk m rest).length + 1 + 1 =
            ((highlightWalk m rest).length + 1) + 1 := rfl
        simpa [walkPrefix, hfc, List.take_succ_cons] using this

/-- Claim C8 as amended: the highlight walk never errors and emphasizes
exactly the nodes along the longest prefix of the (lowercased) string whose
path exists in the trie: it emphasizes zero nodes iff already the first
character has no child at the root (in particular on any trie with no word
whose first character matches), every emphasized depth corresponds to an
existing path, and when the walk stops early the very next step of the path
is missing. -/
theorem C8_break_stop (t : Trie) (w : String) :
    ((t.highlightWordInSVG w).length ≤ (lowerChars w).length) ∧
      (∀ c rest, lowerChars w = c :: rest → findChild t.root c = none →
        t.highlightWordInSVG w = []) ∧
      (∀ k, k ≤ (t.highlightWordInSVG w).length →
        (walkPrefix t.root ((lowerChars w).take k)).isSome = true) ∧
      ((t.highlightWordInSVG w).length < (lowerChars w).length →
        walkPrefix t.root ((lowerChars w).take ((t.highlightWordInSVG w).length + 1)) = none) := by
  obtain ⟨h1, h2, h3⟩ := highlightWalk_spec (lowerChars w) t.root
  refine ⟨h1, ?_, h2, h3⟩
  intro c rest hcr hfc
  simp [Trie.highlightWordInSVG, hcr, highlightWalk, hfc]

theorem WF.keys_nodup {n : TrieNode} (h : WF n) : (n.children.map Prod.fst).Nodup := by
  cases h with
  | mk cs e f w p hnd hch => exact hnd

theorem WF.child {n : TrieNode} (h : WF n) : ∀ kc ∈ n.children, WF kc.2 := by
  cases h with
  | mk cs e f w p hnd hch => exact hch

theorem find?_eq_of_findChild {n : TrieNode} {c : Char} {m : TrieNode}
    (h : findChild n c = some m) :
    n.children.find? (fun q => q.1 == c) = some (c, m) := by
  unfold findChild at h
  cases hf : n.children.find? (fun q => q.1 == c) with
  | none => rw [hf] at h; simp at h
  | some pr =>
    rw [hf] at h
    have hpred := List.find?_some hf
    have hc : pr.1 = c := by simpa using hpred
    have hm : pr.2 = m := by simpa using h
    have hpr : pr = (c, m) := by
      obtain ⟨a, b⟩ := pr
      simp only at hc hm
      rw [hc, hm]
    rw [hpr]

theorem findChild_mem {n : TrieNode} {c : Char} {m : TrieNode}
    (h : findChild n c = some m) : (c, m) ∈ n.children :=
  List.mem_of_find?_eq_some (find?_eq_of_findChild h)

theorem find?_of_mem_nodup {cs : List (Char × TrieNode)} {c : Char} {t : TrieNode}
    (hnd : (cs.map Prod.fst).Nodup) (hm : (c, t) ∈ cs) :
    cs.find? (fun q => q.1 == c) = some (c, t) := by
  induction cs with
  | nil => simp at hm
  | cons hd tl ih =>
    obtain ⟨c₀, t₀⟩ := hd
    rcases List.mem_cons.mp hm with heq | htl
    · rw [← heq]
      simp
    · rw [List.map_cons, List.nodup_cons] at hnd
      have hc : c ≠ c₀ := by
        intro hcc
        subst hcc
        exact hnd.1 (List.mem_map.mpr ⟨(c, t), htl, rfl⟩)
      have hb : (c₀ == c) = false := beq_eq_false_iff_ne.mpr (Ne.symm hc)
      simp only [List.find?, hb]
      exact ih hnd.2 htl

theorem findChild_of_mem_nodup {n : TrieNode} {c : Char} {t : TrieNode}
    (hwf : WF n) (hm : (c, t) ∈ n.children) : findChild n c = some t := by
  unfold findChild
  rw [find?_of_mem_nodup hwf.keys_nodup hm]
  rfl

theorem map_fst_setChild (cs : List (Char × TrieNode)) (c : Char) (t : TrieNode) :
    (setChild cs c t).map Prod.fst =
      if c ∈ cs.map Prod.fst then cs.map Prod.fst else cs.map Prod.fst ++ [c] := by
  induction cs with
  | nil => simp [setChild]
  | cons hd tl ih =>
    obtain ⟨c₀, t₀⟩ := hd
    by_cases hc : c₀ = c
    · subst hc
      simp [setChild]
    · have hb : (c₀ == c) = false := beq_eq_false_iff_ne.mpr hc
      by_cases hmem : c ∈ tl.map Prod.fst
      · simp [setChild, hb, ih, hmem, Ne.symm hc]
      · simp [setChild, hb, ih, hmem, Ne.symm hc]

theorem mem_setChild {cs : List (Char × TrieNode)} {c : Char} {t : TrieNode}
    {kc : Char × TrieNode} (h : kc ∈ setChild cs c t) : kc ∈ cs ∨ kc = (c, t) := by
  induction cs with
  | nil =>
    simp [setChild] at h
    exact Or.inr h
  | cons hd tl ih =>
    obtain ⟨c₀, t₀⟩ := hd
    by_cases hc : c₀ = c
    · subst hc
      simp [setChild] at h
      rcases h with h | h
      · exact Or.inr (by rw [h])
      · exact Or.inl (List.mem_cons_of_mem _ h)
    · have hb : (c₀ == c) = false := beq_eq_false_iff_ne.mpr hc
      simp only [setChild, hb, Bool.false_eq_true, if_false, List.mem_cons] at h
      rcases h with h | h
      · exact Or.inl (by rw [h]; exact List.mem_cons_self _ _)
      · rcases ih h with h' | h'
        · exact Or.inl (List.mem_cons_of_mem _ h')
        · exact Or.inr h'

theorem wf_setChild {cs : List (Char × TrieNode)} {c : Char} {t : TrieNode}
    (hnd : (cs.map Prod.fst).Nodup) (hch : ∀ kc ∈ cs, WF kc.2) (hwf : WF t)
    (e : Bool) (f w : Nat) (p : String) : WF (.mk (setChild cs c t) e f w p) := by
  refine WF.mk _ _ _ _ _ ?_ ?_
  · rw [map_fst_setChild]
    by_cases hmem : c ∈ cs.map Prod.fst
    · simpa [hmem] using hnd
    · simp only [hmem, if_false]
      exact List.nodup_append.mpr ⟨hnd, List.nodup_singleton _, by simpa using hmem⟩
  · intro kc hkc
    rcases mem_setChild hkc with h | h
    · exact hch kc h
    · rw [h]; exact hwf

theorem wf_new : WF TrieNode.new :=
  WF.mk [] false 0 0 "" (by simp) (by simp)

theorem wf_insertGo (cs : List Char) : ∀ (n : TrieNode) (pa : List Char) (f : Nat)
    (w : String), WF n → WF (insertGo n cs pa f w) := by
  induction cs with
  | nil =>
    intro n pa f w hwf
    obtain ⟨cs', e, fr, wt, p⟩ := n
    exact WF.mk _ _ _ _ _ hwf.keys_nodup hwf.child
  | cons c rest ih =>
    intro n pa f w hwf
    have hwfchild : WF (match findChild n c with
        | some t => t
        | none => .mk [] false 0 0 (String.mk (pa ++ [c]))) := by
      cases hfc : findChild n c with
      | none => exact WF.mk [] false 0 0 _ (by simp) (by simp)
      | some m => exact hwf.child _ (findChild_mem hfc)
    obtain ⟨cs', e, fr, wt, p⟩ := n
    exact wf_setChild hwf.keys_nodup hwf.child (ih _ _ _ _ hwfchild) _ _ _ _

theorem wf_insert (t : Trie) (w : String) (f : Nat) (h : WF t.root) :
    WF (t.insert w f).root :=
  wf_insertGo (lowerChars w) t.root [] f w h

theorem wf_buildTrie (ws : List String) : WF (buildTrie ws).root := by
  have hgen : ∀ (l : List String) (t : Trie), WF t.root →
      WF ((l.foldl (fun t w => t.insert w 1) t).root) := by
    intro l
    induction l with
    | nil => intro t h; exact h
    | cons w l ih =>
      intro t h
      exact ih _ (wf_insert t w 1 h)
  exact hgen ws Trie.empty wf_new

theorem wf_walkPrefix (q : List Char) : ∀ {n m : TrieNode}, WF n →
    walkPrefix n q = some m → WF m := by
  induction q with
  | nil =>
    intro n m hwf h
    simp [walkPrefix] at h
    rwa [← h]
  | cons c q ih =>
    intro n m hwf h
    simp only [walkPrefix] at h
    cases hfc : findChild n c with
    | none => rw [hfc] at h; simp at h
    | some t =>
      rw [hfc] at h
      exact ih (hwf.child _ (findChild_mem hfc)) h

/-!
Lemmas about `_collect`: the collected words extend the collection prefix
and correspond exactly to the end nodes reachable from the collection root.
-/

theorem collectChildren_origin (cs : List (Char × TrieNode)) (pre : List Char) :
    ∀ e ∈ collectChildren cs pre, ∃ c t, (c, t) ∈ cs ∧ e ∈ collect t (pre ++ [c]) := by
  induction cs with
  | nil => simp [collectChildren]
  | cons hd tl ih =>
    obtain ⟨c₀, t₀⟩ := hd
    intro e he
    simp only [collectChildren] at he
    rcases List.mem_append.mp he with h | h
    · exact ⟨c₀, t₀, List.mem_cons_self _ _, h⟩
    · obtain ⟨c, t, hm, hc⟩ := ih e h
      exact ⟨c, t, List.mem_cons_of_mem _ hm, hc⟩

theorem collect_word_prefix :
    ∀ (n : TrieNode) (pre : List Char), ∀ e ∈ collect n pre, pre <+: e.word.data :=
  collect.induct
    (fun n pre => ∀ e ∈ collect n pre, pre <+: e.word.data)
    (fun cs pre => ∀ e ∈ collectChildren cs pre, pre <+: e.word.data)
    (by
      intro cs e f w p pre ih e' he'
      simp only [collect] at he'
      rcases List.mem_append.mp he' with h | h
      · cases e with
        | false => simp at h
        | true =>
          have : e' = ⟨String.mk pre, f, w⟩ := by simpa using h
          subst this
          exact List.prefix_refl _
      · exact ih e' h)
    (by
      intro pre e he
      simp [collectChildren] at he)
    (by
      intro c t rest pre ih1 ih2 e he
      simp only [collectChildren] at he
      rcases List.mem_append.mp he with h | h
      · exact (List.prefix_append pre [c]).trans (ih1 e h)
      · exact ih2 e h)

theorem collectChildren_word_longer (cs : List (Char × TrieNode)) (pre : List Char) :
    ∀ e ∈ collectChildren cs pre, pre.length < e.word.data.length := by
  intro e he
  obtain ⟨c, t, _, he'⟩ := collectChildren_origin cs pre e he
  have hpre := collect_word_prefix t (pre ++ [c]) e he'
  have hlen := hpre.length_le
  simp only [List.length_append, List.length_singleton] at hlen
  omega

theorem collect_subset_collectChildren {c : Char} {t : TrieNode}
    (cs : List (Char × TrieNode)) (pre : List Char) (hm : (c, t) ∈ cs) :
    ∀ e ∈ collect t (pre ++ [c]), e ∈ collectChildren cs pre := by
  induction cs with
  | nil => simp at hm
  | cons hd tl ih =>
    intro e he
    obtain ⟨c₀, t₀⟩ := hd
    rcases List.mem_cons.mp hm with heq | htl
    · cases heq
      simp only [collectChildren]
      exact List.mem_append_left _ he
    · simp only [collectChildren]
      exact List.mem_append_right _ (ih htl e he)

theorem walk_end_mem_collect (r : List Char) : ∀ (n m : TrieNode) (pre : List Char),
    walkPrefix n r = some m → m.isEnd = true →
    ∃ e ∈ collect n pre, e.word = String.mk (pre ++ r) := by
  induction r with
  | nil =>
    intro n m pre hw hend
    have hmn : n = m := by simpa [walkPrefix] using hw
    subst hmn
    obtain ⟨cs, e, f, w, p⟩ := n
    have he : e = true := by simpa [TrieNode.isEnd] using hend
    subst he
    exact ⟨⟨String.mk pre, f, w⟩, by simp [collect], by simp⟩
  | cons c r ih =>
    intro n m pre hw hend
    simp only [walkPrefix] at hw
    cases hfc : findChild n c with
    | none => rw [hfc] at hw; simp at hw
    | some t =>
      rw [hfc] at hw
      obtain ⟨e, he, hword⟩ := ih t m (pre ++ [c]) hw hend
      have hmem := collect_subset_collectChildren n.children pre (findChild_mem hfc) e he
      refine ⟨e, ?_, ?_⟩
      · obtain ⟨cs, eb, f, w, p⟩ := n
        simp only [collect]
        exact List.mem_append_right _ hmem
      · rw [hword]
        congr 1
        simp

theorem collect_mem_walk :
    ∀ (n : TrieNode) (pre : List Char), WF n → ∀ e ∈ collect n pre,
      ∃ r m, e.word = String.mk (pre ++ r) ∧ walkPrefix n r = some m ∧ m.isEnd = true :=
  collect.induct
    (fun n pre => WF n → ∀ e ∈ collect n pre,
      ∃ r m, e.word = String.mk (pre ++ r) ∧ walkPrefix n r = some m ∧ m.isEnd = true)
    (fun cs pre => (cs.map Prod.fst).Nodup → (∀ kc ∈ cs, WF kc.2) →
      ∀ e ∈ collectChildren cs pre,
        ∃ c t r m, (c, t) ∈ cs ∧ e.word = String.mk (pre ++ c :: r) ∧
          walkPrefix t r = some m ∧ m.isEnd = true)
    (by
      intro cs e f w p pre ih hwf e' he'
      simp only [collect] at he'
      rcases List.mem_append.mp he' with h | h
      · cases e with
        | false => simp at h
        | true =>
          have : e' = ⟨String.mk pre, f, w⟩ := by simpa using h
          subst this
          exact ⟨[], .mk cs true f w p, by simp, by simp [walkPrefix], rfl⟩
      · obtain ⟨c, t, r, m, hm, hword, hwalk, hend⟩ := ih hwf.keys_nodup hwf.child e' h
        refine ⟨c :: r, m, hword, ?_, hend⟩
        have hfc : findChild (.mk cs e f w p) c = some t :=
          findChild_of_mem_nodup hwf hm
        simp [walkPrefix, hfc, hwalk])
    (by
      intro pre hnd hch e he
      simp [collectChildren] at he)
    (by
      intro c t rest pre ih1 ih2 hnd hch e he
      simp only [collectChildren] at he
      rcases List.mem_append.mp he with h | h
      · obtain ⟨r, m, hword, hwalk, hend⟩ :=
          ih1 (hch _ (List.mem_cons_self _ _)) e h
        refine ⟨c, t, r, m, List.mem_cons_self _ _, ?_, hwalk, hend⟩
        rw [hword]
        congr 1
        simp
      · obtain ⟨c', t', r, m, hm, hword, hwalk, hend⟩ :=
          ih2 (by rw [List.map_cons, List.nodup_cons] at hnd; exact hnd.2)
            (fun kc hkc => hch kc (List.mem_cons_of_mem _ hkc)) e h
        exact ⟨c', t', r, m, List.mem_cons_of_mem _ hm, hword, hwalk, hend⟩)

/-!
Interaction of walks with `insert`: unfolding equations, preservation of
existing end nodes, and the converse (end nodes of the new tree are old end
nodes or the freshly inserted word).
-/

theorem insertGo_cons (n : TrieNode) (c : Char) (rest pa : List Char) (f : Nat) (w : String) :
    insertGo n (c :: rest) pa f w =
      .mk (setChild n.children c (insertGo (insChild n c pa) rest (pa ++ [c]) f w))
        n.isEnd n.freq n.weight n.path := by
  obtain ⟨cs', e, fr, wt, p⟩ := n
  rfl

theorem findChild_setChild_self (cs : List (Char × TrieNode)) (c : Char) (t : TrieNode)
    (e : Bool) (f w : Nat) (p : String) :
    findChild (.mk (setChild cs c t) e f w p) c = some t := by
  rw [findChild_mk, find?_setChild_self]
  rfl

theorem findChild_setChild_other (n : TrieNode) (c a : Char) (t : TrieNode)
    (e : Bool) (f w : Nat) (p : String) (h : a ≠ c) :
    findChild (.mk (setChild n.children c t) e f w p) a = findChild n a := by
  rw [findChild_mk, find?_setChild_ne _ _ _ _ h]
  rfl

theorem walkPrefix_cons_some {n t : TrieNode} {c : Char} (h : findChild n c = some t)
    (cs : List Char) : walkPrefix n (c :: cs) = walkPrefix t cs := by
  simp [walkPrefix, h]

theorem walkPrefix_cons_none {n : TrieNode} {c : Char} (h : findChild n c = none)
    (cs : List Char) : walkPrefix n (c :: cs) = none := by
  simp [walkPrefix, h]

theorem walk_insertGo_pres (q : List Char) : ∀ (n : TrieNode) (cs pa : List Char)
    (f : Nat) (w : String) (m : TrieNode), walkPrefix n q = some m →
    ∃ m', walkPrefix (insertGo n cs pa f w) q = some m' ∧
      (m.isEnd = true → m'.isEnd = true) ∧ m'.weight = m.weight := by
  induction q with
  | nil =>
    intro n cs pa f w m hw
    have hnm : n = m := by simpa [walkPrefix] using hw
    subst hnm
    refine ⟨insertGo n cs pa f w, by simp [walkPrefix], ?_, ?_⟩
    · cases cs with
      | nil =>
        obtain ⟨cs', e, fr, wt, p⟩ := n
        simp [insertGo, TrieNode.isEnd]
      | cons c rest =>
        rw [insertGo_cons]
        simp [TrieNode.isEnd]
    · cases cs with
      | nil =>
        obtain ⟨cs', e, fr, wt, p⟩ := n
        simp [insertGo, TrieNode.weight]
      | cons c rest =>
        rw [insertGo_cons]
        simp [TrieNode.weight]
  | cons a q ih =>
    intro n cs pa f w m hw
    cases hfc : findChild n a with
    | none => rw [walkPrefix_cons_none hfc] at hw; simp at hw
    | some na =>
      rw [walkPrefix_cons_some hfc] at hw
      cases cs with
      | nil =>
        obtain ⟨cs', e, fr, wt, p⟩ := n
        refine ⟨m, ?_, fun h => h, rfl⟩
        have hfc' : findChild (TrieNode.mk cs' true (fr + f) wt w) a = some na := hfc
        rw [show insertGo (TrieNode.mk cs' e fr wt p) [] pa f w =
            TrieNode.mk cs' true (fr + f) wt w from rfl,
          walkPrefix_cons_some hfc']
        exact hw
      | cons c rest =>
        by_cases hac : a = c
        · subst hac
          obtain ⟨m', hm', hend', hwt'⟩ := ih na rest (pa ++ [a]) f w m hw
          have hchild : insChild n a pa = na := by simp [insChild, hfc]
          refine ⟨m', ?_, hend', hwt'⟩
          rw [insertGo_cons,
            walkPrefix_cons_some (findChild_setChild_self n.children a _ _ _ _ _), hchild]
          exact hm'
        · refine ⟨m, ?_, fun h => h, rfl⟩
          rw [insertGo_cons,
            walkPrefix_cons_some (by rw [findChild_setChild_other n c a _ _ _ _ _ hac]; exact hfc)]
          exact hw

theorem walk_insertGo_inv (s : List Char) : ∀ (n : TrieNode) (cs pa : List Char)
    (f : Nat) (w : String) (m : TrieNode),
    walkPrefix (insertGo n cs pa f w) s = some m → m.isEnd = true →
    (∃ m₀, walkPrefix n s = some m₀ ∧ m₀.isEnd = true) ∨ s = cs := by
  induction s with
  | nil =>
    intro n cs pa f w m hw hend
    cases cs with
    | nil => exact Or.inr rfl
    | cons c rest =>
      left
      have hm : insertGo n (c :: rest) pa f w = m := by simpa [walkPrefix] using hw
      refine ⟨n, by simp [walkPrefix], ?_⟩
      rw [← hm, insertGo_cons] at hend
      simpa [TrieNode.isEnd] using hend
  | cons a s ih =>
    intro n cs pa f w m hw hend
    cases cs with
    | nil =>
      obtain ⟨cs', e, fr, wt, p⟩ := n
      rw [show insertGo (TrieNode.mk cs' e fr wt p) [] pa f w =
          TrieNode.mk cs' true (fr + f) wt w from rfl] at hw
      cases hfc : findChild (TrieNode.mk cs' e fr wt p) a with
      | none =>
        have hfc' : findChild (TrieNode.mk cs' true (fr + f) wt w) a = none := hfc
        rw [walkPrefix_cons_none hfc'] at hw
        simp at hw
      | some na =>
        have hfc' : findChild (TrieNode.mk cs' true (fr + f) wt w) a = some na := hfc
        rw [walkPrefix_cons_some hfc'] at hw
        exact Or.inl ⟨m, by rw [walkPrefix_cons_some hfc]; exact hw, hend⟩
    | cons c rest =>
      rw [insertGo_cons] at hw
      by_cases hac : a = c
      · subst hac
        rw [walkPrefix_cons_some (findChild_setChild_self n.children a _ _ _ _ _)] at hw
        rcases ih (insChild n a pa) rest (pa ++ [a]) f w m hw hend with ⟨m₀, hm₀, hend₀⟩ | hrest
        · cases hfc : findChild n a with
          | some na =>
            left
            have hchild : insChild n a pa = na := by simp [insChild, hfc]
            rw [hchild] at hm₀
            exact ⟨m₀, by rw [walkPrefix_cons_some hfc]; exact hm₀, hend₀⟩
          | none =>
            exfalso
            have hchild : insChild n a pa = .mk [] false 0 0 (String.mk (pa ++ [a])) := by
              simp [insChild, hfc]
            rw [hchild] at hm₀
            cases s with
            | nil =>
              have : TrieNode.mk [] false 0 0 (String.mk (pa ++ [a])) = m₀ := by
                simpa [walkPrefix] using hm₀
              rw [← this] at hend₀
              simp [TrieNode.isEnd] at hend₀
            | cons b s' =>
              rw [walkPrefix_cons_none (by rw [findChild_mk]; rfl)] at hm₀
              simp at hm₀
        · right
          rw [hrest]
      · have hscother := findChild_setChild_other n c a
          (insertGo (insChild n c pa) rest (pa ++ [c]) f w) n.isEnd n.freq n.weight n.path hac
        cases hfc : findChild n a with
        | none =>
          rw [walkPrefix_cons_none (by rw [hscother, hfc])] at hw
          simp at hw
        | some na =>
          rw [walkPrefix_cons_some (show findChild _ a = some na by rw [hscother, hfc])] at hw
          exact Or.inl ⟨m, by rw [walkPrefix_cons_some hfc]; exact hw, hend⟩

theorem walk_new_end (s : List Char) (m : TrieNode)
    (hw : walkPrefix TrieNode.new s = some m) (hend : m.isEnd = true) : False := by
  cases s with
  | nil =>
    have : TrieNode.new = m := by simpa [walkPrefix] using hw
    rw [← this] at hend
    simp [TrieNode.new, TrieNode.isEnd] at hend
  | cons c s =>
    rw [walkPrefix_cons_none (by rw [TrieNode.new, findChild_mk]; rfl)] at hw
    simp at hw

theorem foldl_preserves_contains (ws : List String) : ∀ (t : Trie) (q : List Char),
    (∃ m, walkPrefix t.root q = some m ∧ m.isEnd = true) →
    ∃ m, walkPrefix ((ws.foldl (fun t w => t.insert w 1) t).root) q = some m ∧
      m.isEnd = true := by
  induction ws with
  | nil => intro t q h; exact h
  | cons w ws ih =>
    intro t q h
    obtain ⟨m, hm, hend⟩ := h
    obtain ⟨m', hm', hend', _⟩ := walk_insertGo_pres q t.root (lowerChars w) [] 1 w m hm
    exact ih (t.insert w 1) q ⟨m', hm', hend' hend⟩

theorem buildTrie_contains (ws : List String) : ∀ (t : Trie) (w : String), w ∈ ws →
    ∃ m, walkPrefix ((ws.foldl (fun t w => t.insert w 1) t).root) (lowerChars w) = some m ∧
      m.isEnd = true := by
  induction ws with
  | nil => intro t w h; simp at h
  | cons w₀ ws ih =>
    intro t w hw
    rcases List.mem_cons.mp hw with heq | htl
    · subst heq
      refine foldl_preserves_contains ws (t.insert w 1) (lowerChars w) ?_
      obtain ⟨m, hm, hend, _⟩ := insertGo_walk_self (lowerChars w) t.root [] 1 w
      exact ⟨m, hm, hend⟩
    · exact ih (t.insert w₀ 1) w htl

theorem buildTrie_walk_end (ws : List String) : ∀ (t : Trie) (s : List Char) (m : TrieNode),
    walkPrefix ((ws.foldl (fun t w => t.insert w 1) t).root) s = some m → m.isEnd = true →
    (∃ m₀, walkPrefix t.root s = some m₀ ∧ m₀.isEnd = true) ∨ ∃ w ∈ ws, lowerChars w = s := by
  induction ws with
  | nil => intro t s m hw hend; exact Or.inl ⟨m, hw, hend⟩
  | cons w ws ih =>
    intro t s m hw hend
    rcases ih (t.insert w 1) s m hw hend with ⟨m₀, hm₀, hend₀⟩ | ⟨w', hw', hs⟩
    · rcases walk_insertGo_inv s t.root (lowerChars w) [] 1 w m₀ hm₀ hend₀ with
        ⟨m₁, hm₁, hend₁⟩ | hs
      · exact Or.inl ⟨m₁, hm₁, hend₁⟩
      · exact Or.inr ⟨w, List.mem_cons_self _ _, hs.symm⟩
    · exact Or.inr ⟨w', List.mem_cons_of_mem _ hw', hs⟩

theorem mem_sortEntries {l : List Entry} {e : Entry} : e ∈ sortEntries l ↔ e ∈ l := by
  unfold sortEntries
  constructor
  · intro h
    obtain ⟨s, _, he⟩ := List.mem_flatMap.mp h
    exact (List.mem_filter.mp he).1
  · intro h
    refine List.mem_flatMap.mpr ⟨score e, ?_, ?_⟩
    · unfold scoresDesc
      have h2 : score e ∈ (l.map score).dedup :=
        List.mem_dedup.mpr (List.mem_map_of_mem _ h)
      exact ((List.perm_insertionSort _ _).mem_iff).mpr h2
    · exact List.mem_filter.mpr ⟨h, by simp⟩

/-!
Claim C4. The layout pass. Unfolding equations first, then: subtree widths
(leaf 1, internal the sum of the children's widths, independent of the
starting coordinates), the node's own position (last in its positions
list, centered at `x + (totalWidth*70 - 70)/2`), and the horizontal child
order (children enumerated at strictly increasing x offsets in sorted key
order).
-/

theorem mem_of_getLast?_eq {α : Type} {l : List α} {a : α} (h : l.getLast? = some a) :
    a ∈ l := by
  obtain ⟨hne, ha⟩ := List.mem_getLast?_eq_getLast h
  rw [ha]
  exact List.getLast_mem hne

theorem layout_nil_eq {cs : List (Char × TrieNode)} (h : sortChildren cs = [])
    (e : Bool) (f w : Nat) (p : String) (d x : Nat) (pl : Option Char) :
    layout (.mk cs e f w p) d x pl = ([⟨.mk cs e f w p, x, d, pl⟩], 1) := by
  rw [layout]
  split
  · rfl
  · next kc rest h' => rw [h] at h'; cases h'

theorem layout_cons_eq {cs : List (Char × TrieNode)} {kc : Char × TrieNode}
    {rest : List (Char × TrieNode)} (h : sortChildren cs = kc :: rest)
    (e : Bool) (f w : Nat) (p : String) (d x : Nat) (pl : Option Char) :
    layout (.mk cs e f w p) d x pl =
      ((layoutList (kc :: rest) (d + 1) x).1 ++
        [⟨.mk cs e f w p, x + ((layoutList (kc :: rest) (d + 1) x).2.2 * 70 - 70) / 2, d, pl⟩],
       (layoutList (kc :: rest) (d + 1) x).2.2) := by
  rw [layout]
  split
  · next h' => rw [h] at h'; cases h'
  · next kc' rest' h' =>
    rw [h] at h'
    cases h'
    rfl

theorem layoutList_nil_eq (d cx : Nat) : layoutList [] d cx = ([], cx, 0) := by
  rw [layoutList]

theorem layoutList_cons_eq (k : Char) (c : TrieNode) (rest : List (Char × TrieNode))
    (d cx : Nat) :
    layoutList ((k, c) :: rest) d cx =
      ((layout c d cx (some k)).1 ++
          (layoutList rest d (cx + (layout c d cx (some k)).2 * 70)).1,
        (layoutList rest d (cx + (layout c d cx (some k)).2 * 70)).2.1,
        (layout c d cx (some k)).2 +
          (layoutList rest d (cx + (layout c d cx (some k)).2 * 70)).2.2) := by
  rw [layoutList]

/-- The subtree width computed by the layout pass does not depend on the
starting depth, offset or edge label. -/
theorem layout_width_const :
    ∀ (n : TrieNode) (d x : Nat) (pl : Option Char) (d' x' : Nat) (pl' : Option Char),
      (layout n d x pl).2 = (layout n d' x' pl').2 :=
  layout.induct
    (fun n d x pl => ∀ d' x' pl', (layout n d x pl).2 = (layout n d' x' pl').2)
    (fun l d cx => ∀ d' cx', (layoutList l d cx).2.2 = (layoutList l d' cx').2.2)
    (by
      intro cs e f w p d x pl h d' x' pl'
      rw [layout_nil_eq h, layout_nil_eq h])
    (by
      intro cs e f w p d x pl kc rest h ih d' x' pl'
      rw [layout_cons_eq h, layout_cons_eq h]
      exact ih (d' + 1) x')
    (by
      intro d cx d' cx'
      rw [layoutList_nil_eq, layoutList_nil_eq])
    (by
      intro k c rest d cx rc ih1 ih2 d' cx'
      have ih2' : ∀ d'' cx'',
          (layoutList rest d (cx + (layout c d cx (some k)).2 * 70)).2.2 =
            (layoutList rest d'' cx'').2.2 := ih2
      rw [layoutList_cons_eq, layoutList_cons_eq,
        ih2' d' (cx' + (layout c d' cx' (some k)).2 * 70),
        ih1 d' cx' (some k)])

/-- Every subtree occupies at least one width slot. -/
theorem layout_width_pos :
    ∀ (n : TrieNode) (d x : Nat) (pl : Option Char), 1 ≤ (layout n d x pl).2 :=
  layout.induct
    (fun n d x pl => 1 ≤ (layout n d x pl).2)
    (fun l d cx => l ≠ [] → 1 ≤ (layoutList l d cx).2.2)
    (by
      intro cs e f w p d x pl h
      rw [layout_nil_eq h])
    (by
      intro cs e f w p d x pl kc rest h ih
      rw [layout_cons_eq h]
      exact ih (List.cons_ne_nil _ _))
    (by
      intro d cx h
      exact absurd rfl h)
    (by
      intro k c rest d cx rc ih1 ih2 _
      rw [layoutList_cons_eq]
      have h1 : 1 ≤ (layout c d cx (some k)).2 := ih1
      exact le_trans h1 (Nat.le_add_right _ _))

/-- The accumulated `totalWidth` is the sum of the children's widths. -/
theorem layoutList_width_sum : ∀ (l : List (Char × TrieNode)) (d cx : Nat),
    (layoutList l d cx).2.2 = (l.map (fun kc => width kc.2)).sum := by
  intro l
  induction l with
  | nil =>
    intro d cx
    rw [layoutList_nil_eq]
    rfl
  | cons kc rest ih =>
    intro d cx
    obtain ⟨k, c⟩ := kc
    rw [layoutList_cons_eq]
    simp only [List.map_cons, List.sum_cons]
    rw [ih]
    have hc : (layout c d cx (some k)).2 = width c :=
      layout_width_const c d cx (some k) 0 0 none
    rw [hc]

theorem width_pos (n : TrieNode) : 1 ≤ width n := layout_width_pos n 0 0 none

theorem selfX_lower (n : TrieNode) (x : Nat) : x ≤ selfX n x := by
  unfold selfX
  split <;> omega

theorem width_leaf {n : TrieNode} (h : (sortChildren n.children).isEmpty = true) :
    width n = 1 := by
  obtain ⟨cs, e, f, w, p⟩ := n
  have h' : sortChildren cs = [] := List.isEmpty_iff.mp h
  unfold width
  rw [layout_nil_eq h']

theorem selfX_upper (n : TrieNode) (x : Nat) : selfX n x ≤ x + (width n * 70 - 70) := by
  unfold selfX
  split
  · next h =>
    rw [width_leaf h]
    exact Nat.le_add_right _ _
  · next h =>
    exact Nat.add_le_add_left (Nat.div_le_self _ 2) x

theorem childXs_lower : ∀ (l : List (Char × TrieNode)) (cx : Nat),
    ∀ y ∈ childXs l cx, cx ≤ y := by
  intro l
  induction l with
  | nil => intro cx y hy; simp [childXs] at hy
  | cons kc rest ih =>
    intro cx y hy
    obtain ⟨k, c⟩ := kc
    simp only [childXs, List.mem_cons] at hy
    rcases hy with h | h
    · rw [h]
      exact selfX_lower c cx
    · have := ih (cx + width c * 70) y h
      omega

/-- The children's own x coordinates are strictly increasing in sorted key
order. -/
theorem childXs_chain : ∀ (l : List (Char × TrieNode)) (cx : Nat),
    List.Chain' (· < ·) (childXs l cx) := by
  intro l
  induction l with
  | nil => intro cx; simp [childXs]
  | cons kc rest ih =>
    intro cx
    obtain ⟨k, c⟩ := kc
    simp only [childXs]
    rw [List.chain'_cons']
    refine ⟨?_, ih _⟩
    intro y hy
    have hy' : y ∈ childXs rest (cx + width c * 70) := List.mem_of_mem_head? hy
    have h1 := childXs_lower _ _ y hy'
    have h2 := selfX_upper c cx
    have h3 := width_pos c
    omega

/-- The node's own position closes its positions list, at `x` for a leaf and
centered over the children otherwise. -/
theorem layout_getLast (n : TrieNode) (d x : Nat) (pl : Option Char) :
    (layout n d x pl).1.getLast? = some ⟨n, selfX n x, d, pl⟩ := by
  obtain ⟨cs, e, f, w, p⟩ := n
  cases h : sortChildren cs with
  | nil =>
    rw [layout_nil_eq h]
    unfold selfX
    simp [TrieNode.children, h]
  | cons kc rest =>
    rw [layout_cons_eq h]
    rw [List.getLast?_concat]
    unfold selfX
    have hwidth : (layoutList (kc :: rest) (d + 1) x).2.2 = width (.mk cs e f w p) := by
      unfold width
      rw [layout_cons_eq h]
      rw [layoutList_width_sum, layoutList_width_sum]
    rw [hwidth]
    simp [TrieNode.children, h]

/-- Each child's own position occurs among the positions produced by the
child enumeration, at the corresponding `childXs` offset (children at depth
`d`). -/
theorem layoutList_child_mem : ∀ (l : List (Char × TrieNode)) (d cx : Nat),
    ∀ pr ∈ l.zip (childXs l cx),
      (⟨pr.1.2, pr.2, d, some pr.1.1⟩ : Pos) ∈ (layoutList l d cx).1 := by
  intro l
  induction l with
  | nil => intro d cx pr hpr; simp [childXs] at hpr
  | cons kc rest ih =>
    intro d cx pr hpr
    obtain ⟨k, c⟩ := kc
    simp only [childXs, List.zip_cons_cons, List.mem_cons] at hpr
    rcases hpr with h | h
    · rw [h]
      rw [layoutList_cons_eq]
      exact List.mem_append_left _ (mem_of_getLast?_eq (layout_getLast c d cx (some k)))
    · rw [layoutList_cons_eq]
      apply List.mem_append_right
      have hc : (layout c d cx (some k)).2 = width c :=
        layout_width_const c d cx (some k) 0 0 none
      rw [hc]
      exact ih d (cx + width c * 70) pr h

theorem sortChildren_keys_sorted (cs : List (Char × TrieNode)) :
    List.Sorted (· ≤ ·) ((sortChildren cs).map Prod.fst) :=
  List.Pairwise.map Prod.fst (fun _ _ hab => hab)
    (List.sorted_insertionSort (fun a b : Char × TrieNode => a.1 ≤ b.1) cs)

theorem sortChildren_ne_nil {cs : List (Char × TrieNode)} (h : cs.isEmpty = false) :
    sortChildren cs ≠ [] := by
  intro hnil
  have hperm : (sortChildren cs).Perm cs := List.perm_insertionSort _ _
  rw [hnil] at hperm
  have hcs : cs = [] := hperm.symm.eq_nil
  rw [hcs] at h
  simp [List.isEmpty] at h

/-- Claim C4: the layout pass gives each leaf subtree width 1 and each
internal subtree the sum of its children's widths; it places each internal
node last in its positions list at `x + (totalWidth*70 - 70)/2`; it
enumerates children in ascending (lexicographic) key order at strictly
increasing x coordinates, each child's own position appearing at its
`childXs` offset and depth `d+1`; and as a pure function it is
deterministic (identical passes yield identical positions). -/
theorem C4_layout (n : TrieNode) (d x : Nat) (pl : Option Char) :
    ((sortChildren n.children).isEmpty = true →
        layout n d x pl = ([⟨n, x, d, pl⟩], 1)) ∧
      (n.children.isEmpty = false →
        (layout n d x pl).2 = (n.children.map (fun kc => width kc.2)).sum) ∧
      (n.children.isEmpty = false →
        (layout n d x pl).1.getLast? =
          some ⟨n, x + ((layout n d x pl).2 * 70 - 70) / 2, d, pl⟩) ∧
      List.Sorted (· ≤ ·) ((sortChildren n.children).map Prod.fst) ∧
      List.Chain' (· < ·) (childXs (sortChildren n.children) x) ∧
      (∀ pr ∈ (sortChildren n.children).zip (childXs (sortChildren n.children) x),
        (⟨pr.1.2, pr.2, d + 1, some pr.1.1⟩ : Pos) ∈ (layout n d x pl).1) ∧
      layout n d x pl = layout n d x pl := by
  refine ⟨?_, ?_, ?_, sortChildren_keys_sorted _, childXs_chain _ x, ?_, rfl⟩
  · intro h
    obtain ⟨cs, e, f, w, p⟩ := n
    exact layout_nil_eq (List.isEmpty_iff.mp h) e f w p d x pl
  · intro h
    obtain ⟨cs, e, f, w, p⟩ := n
    simp only [TrieNode.children] at h ⊢
    cases hs : sortChildren cs with
    | nil => exact absurd hs (sortChildren_ne_nil h)
    | cons kc rest =>
      rw [layout_cons_eq hs]
      rw [layoutList_width_sum, ← hs]
      have hperm : ((sortChildren cs).map (fun kc => width kc.2)).Perm
          (cs.map (fun kc => width kc.2)) := (List.perm_insertionSort _ _).map _
      exact hperm.sum_eq
  · intro h
    have hl := layout_getLast n d x pl
    have hwidth : (layout n d x pl).2 = width n := layout_width_const n d x pl 0 0 none
    rw [hl, hwidth]
    have hne : (sortChildren n.children).isEmpty = false := by
      cases hh : (sortChildren n.children).isEmpty
      · rfl
      · exact absurd (List.isEmpty_iff.mp hh) (sortChildren_ne_nil h)
    unfold selfX
    rw [hne]
    simp
  · intro pr hpr
    obtain ⟨cs, e, f, w, p⟩ := n
    simp only [TrieNode.children] at hpr ⊢
    cases hs : sortChildren cs with
    | nil => rw [hs] at hpr; simp [childXs] at hpr
    | cons kc rest =>
      rw [layout_cons_eq hs]
      apply List.mem_append_left
      rw [hs] at hpr
      exact layoutList_child_mem (kc :: rest) (d + 1) x pr hpr

theorem C4_layout_witness :
    ((sortChildren (buildTrie []).root.children).isEmpty = true ∧
        layout (buildTrie []).root 0 0 none = ([⟨(buildTrie []).root, 0, 0, none⟩], 1)) ∧
      ((buildTrie ["ab", "ac"]).root.children.isEmpty = false ∧
        (layout (buildTrie ["ab", "ac"]).root 5 7 none).2 =
          ((buildTrie ["ab", "ac"]).root.children.map (fun kc => width kc.2)).sum ∧
        (layout (buildTrie ["ab", "ac"]).root 5 7 none).1.getLast? =
          some ⟨(buildTrie ["ab", "ac"]).root,
            7 + ((layout (buildTrie ["ab", "ac"]).root 5 7 none).2 * 70 - 70) / 2, 5, none⟩) :=
  ⟨⟨by decide, (C4_layout (buildTrie []).root 0 0 none).1 (by decide)⟩,
    ⟨by decide, (C4_layout (buildTrie ["ab", "ac"]).root 5 7 none).2.1 (by decide),
      (C4_layout (buildTrie ["ab", "ac"]).root 5 7 none).2.2.1 (by decide)⟩⟩

/-!
Claim C2. Prefix correctness of `autocomplete`: every inserted word is
found under each of its (case-folded) prefixes, and a query that is not a
prefix of any inserted word yields the empty sequence, never an error.
-/

/-- Claim C2: for every word list, every inserted word W and every prefix P
of the case-folded W, `autocomplete(P)` contains an entry for the
case-folded W; and for every query Q that is not a prefix of any inserted
word (after case folding), `autocomplete(Q)` returns `[]`. -/
theorem C2_prefix_correct :
    (∀ (ws : List String) (w p : String), w ∈ ws → lowerChars p <+: lowerChars w →
        ∃ e ∈ (buildTrie ws).autocomplete p, e.word = lowerStr w) ∧
      (∀ (ws : List String) (q : String), (∀ w ∈ ws, ¬ lowerChars q <+: lowerChars w) →
        (buildTrie ws).autocomplete q = []) := by
  constructor
  · intro ws w p hw hpre
    obtain ⟨m, hm, hend⟩ := buildTrie_contains ws Trie.empty w hw
    obtain ⟨r, hr⟩ := hpre
    have hm' : walkPrefix (buildTrie ws).root (lowerChars p ++ r) = some m := by
      rw [hr]
      exact hm
    rw [walkPrefix_append] at hm'
    cases hwp : walkPrefix (buildTrie ws).root (lowerChars p) with
    | none => rw [hwp] at hm'; simp at hm'
    | some n₀ =>
      rw [hwp] at hm'
      have hm'' : walkPrefix n₀ r = some m := hm'
      obtain ⟨e, he, hword⟩ := walk_end_mem_collect r n₀ m (lowerChars p) hm'' hend
      refine ⟨e, ?_, ?_⟩
      · simp only [Trie.autocomplete, hwp]
        exact mem_sortEntries.mpr he
      · rw [hword, hr]
        rfl
  · intro ws q hq
    cases hwp : walkPrefix (buildTrie ws).root (lowerChars q) with
    | none => simp [Trie.autocomplete, hwp]
    | some n₀ =>
      have hcoll : collect n₀ (lowerChars q) = [] := by
        by_contra hne
        obtain ⟨e, he⟩ := List.exists_mem_of_ne_nil _ hne
        have hwf₀ : WF n₀ := wf_walkPrefix _ (wf_buildTrie ws) hwp
        obtain ⟨r, m, _, hwalk, hend⟩ := collect_mem_walk n₀ (lowerChars q) hwf₀ e he
        have hfull : walkPrefix (buildTrie ws).root (lowerChars q ++ r) = some m := by
          rw [walkPrefix_append, hwp]
          simpa
        rcases buildTrie_walk_end ws Trie.empty (lowerChars q ++ r) m hfull hend with
          ⟨m₀, hm₀, hend₀⟩ | ⟨w, hwm, hs⟩
        · exact walk_new_end _ _ hm₀ hend₀
        · exact hq w hwm ⟨r, hs.symm ▸ rfl⟩
      simp [Trie.autocomplete, hwp, hcoll, sortEntries, scoresDesc]

theorem C2_prefix_correct_witness :
    (("ab" : String) ∈ ["ab"] ∧ lowerChars "a" <+: lowerChars "ab" ∧
        ∃ e ∈ (buildTrie ["ab"]).autocomplete "a", e.word = lowerStr "ab") ∧
      ((∀ w ∈ ["ab"], ¬ lowerChars "zz" <+: lowerChars w) ∧
        (buildTrie ["ab"]).autocomplete "zz" = []) :=
  ⟨⟨by decide, by decide,
      C2_prefix_correct.1 ["ab"] "ab" "a" (by decide) (by decide)⟩,
    ⟨by decide, C2_prefix_correct.2 ["ab"] "zz" (by decide)⟩⟩

theorem C8_break_stop_witness :
    ((buildTrie ["a"]).highlightWordInSVG "x" = []) ∧
      (1 ≤ ((buildTrie ["xa"]).highlightWordInSVG "xyz").length ∧
        (walkPrefix (buildTrie ["xa"]).root ((lowerChars "xyz").take 1)).isSome = true) ∧
      (((buildTrie ["xa"]).highlightWordInSVG "xyz").length < (lowerChars "xyz").length ∧
        walkPrefix (buildTrie ["xa"]).root
          ((lowerChars "xyz").take
            (((buildTrie ["xa"]).highlightWordInSVG "xyz").length + 1)) = none) :=
  ⟨(C8_break_stop (buildTrie ["a"]) "x").2.1 'x' [] rfl rfl,
    ⟨by decide, (C8_break_stop (buildTrie ["xa"]) "xyz").2.2.1 1 (by decide)⟩,
    ⟨by decide, (C8_break_stop (buildTrie ["xa"]) "xyz").2.2.2 (by decide)⟩⟩

/-!
Claim C9. One selection event bumps the weight of the selected word's
terminal node by one. We show the bump commutes with walking and with
`_collect` (it maps the selected word's entry to its bumped copy and leaves
every other entry unchanged), that collected words are pairwise distinct
on well-formed tries, and then that the bumped word's rank in any
`autocomplete` output can only improve or stay.
-/

theorem bumpAt_nil (cs : List (Char × TrieNode)) (e : Bool) (f w : Nat) (p : String) :
    bumpAt (.mk cs e f w p) [] = .mk cs e f (w + 1) p := rfl

theorem bumpAt_cons_none {n : TrieNode} {c : Char} (rest : List Char)
    (h : findChild n c = none) : bumpAt n (c :: rest) = n := by
  obtain ⟨cs, e, f, w, p⟩ := n
  simp [bumpAt, h]

theorem bumpAt_cons_some {n m : TrieNode} {c : Char} (rest : List Char)
    (h : findChild n c = some m) :
    bumpAt n (c :: rest) =
      .mk (setChild n.children c (bumpAt m rest)) n.isEnd n.freq n.weight n.path := by
  obtain ⟨cs, e, f, w, p⟩ := n
  simp [bumpAt, h]

theorem bumpAt_weight_ge (qb : List Char) (n : TrieNode) :
    n.weight ≤ (bumpAt n qb).weight := by
  cases qb with
  | nil =>
    obtain ⟨cs, e, f, w, p⟩ := n
    rw [bumpAt_nil]
    exact Nat.le_succ _
  | cons c rest =>
    cases h : findChild n c with
    | none => rw [bumpAt_cons_none rest h]
    | some m =>
      rw [bumpAt_cons_some rest h]
      simp [TrieNode.weight]

theorem bumpAt_children_nil (n : TrieNode) : (bumpAt n []).children = n.children := by
  obtain ⟨cs, e, f, w, p⟩ := n
  rfl

/-- Walking a path that is a prefix of the bump path lands on the bumped
copy of the original node. -/
theorem walk_bumpAt_pre (pcs : List Char) : ∀ (n : TrieNode) (r : List Char),
    walkPrefix (bumpAt n (pcs ++ r)) pcs =
      (walkPrefix n pcs).map (fun m => bumpAt m r) := by
  induction pcs with
  | nil => intro n r; simp [walkPrefix]
  | cons a pcs ih =>
    intro n r
    cases hfc : findChild n a with
    | none =>
      rw [List.cons_append, bumpAt_cons_none (pcs ++ r) hfc, walkPrefix_cons_none hfc]
      rfl
    | some na =>
      rw [List.cons_append, bumpAt_cons_some (pcs ++ r) hfc,
        walkPrefix_cons_some (findChild_setChild_self n.children a _ _ _ _ _),
        walkPrefix_cons_some hfc]
      exact ih na r

/-- Walking a path that is not a prefix of the bump path gives exactly the
original walk result (the bump changes no node outside its path and only
the weight on it). -/
theorem findChild_bumpAt_nil (n : TrieNode) (a : Char) :
    findChild (bumpAt n []) a = findChild n a := by
  obtain ⟨cs, e, f, w, p⟩ := n
  rfl

theorem walk_bumpAt_not_pre (pcs : List Char) : ∀ (n : TrieNode) (qb : List Char),
    ¬ pcs <+: qb → walkPrefix (bumpAt n qb) pcs = walkPrefix n pcs := by
  induction pcs with
  | nil => intro n qb h; exact absurd List.nil_prefix h
  | cons a pcs ih =>
    intro n qb h
    cases qb with
    | nil =>
      cases hfc : findChild n a with
      | none =>
        rw [walkPrefix_cons_none (by rw [findChild_bumpAt_nil]; exact hfc),
          walkPrefix_cons_none hfc]
      | some na =>
        rw [walkPrefix_cons_some (show findChild (bumpAt n []) a = some na by
            rw [findChild_bumpAt_nil]; exact hfc),
          walkPrefix_cons_some hfc]
    | cons c rest =>
      cases hfc : findChild n c with
      | none => rw [bumpAt_cons_none rest hfc]
      | some mc =>
        rw [bumpAt_cons_some rest hfc]
        by_cases hac : a = c
        · subst hac
          have hpre : ¬ pcs <+: rest := by
            intro hp
            exact h (List.cons_prefix_cons.mpr ⟨rfl, hp⟩)
          rw [walkPrefix_cons_some (findChild_setChild_self n.children a _ _ _ _ _),
            walkPrefix_cons_some hfc]
          exact ih mc rest hpre
        · have hother := findChild_setChild_other n c a (bumpAt mc rest) n.isEnd n.freq
            n.weight n.path hac
          cases hfa : findChild n a with
          | none =>
            rw [walkPrefix_cons_none (by rw [hother]; exact hfa), walkPrefix_cons_none hfa]
          | some na =>
            rw [walkPrefix_cons_some (show _ = some na by rw [hother]; exact hfa),
              walkPrefix_cons_some hfa]

theorem prefix_char_eq {pre : List Char} {a b : Char} {s : List Char}
    (h : (pre ++ [a]) <+: (pre ++ b :: s)) : a = b := by
  obtain ⟨u, hu⟩ := h
  rw [List.append_assoc] at hu
  have h2 := List.append_cancel_left hu
  have h3 : a = b ∧ u = s := by simpa using h2
  exact h3.1

theorem bumpEntry_eq_self {target : String} {e : Entry} (h : e.word ≠ target) :
    bumpEntry target e = e := by
  simp [bumpEntry, h]

theorem map_bumpEntry_id {target : String} {l : List Entry}
    (h : ∀ e ∈ l, e.word ≠ target) : l.map (bumpEntry target) = l := by
  induction l with
  | nil => rfl
  | cons a l ih =>
    rw [List.map_cons, bumpEntry_eq_self (h a (List.mem_cons_self _ _)),
      ih (fun e he => h e (List.mem_cons_of_mem _ he))]

theorem collect_word_ne {t : TrieNode} {pre : List Char} {c c' : Char} {s : List Char}
    (hne : c' ≠ c) : ∀ e ∈ collect t (pre ++ [c']), e.word ≠ String.mk (pre ++ c :: s) := by
  intro e he heq
  have hpre := collect_word_prefix t (pre ++ [c']) e he
  rw [heq] at hpre
  exact hne (prefix_char_eq hpre)

theorem head_word_ne {pre : List Char} {c : Char} {s : List Char} :
    String.mk pre ≠ String.mk (pre ++ c :: s) := by
  intro h
  have h2 : pre = pre ++ c :: s := congrArg String.data h
  have := congrArg List.length h2
  simp at this

theorem collect_eq (cs : List (Char × TrieNode)) (e : Bool) (f w : Nat) (p : String)
    (pre : List Char) :
    collect (.mk cs e f w p) pre =
      (if e then [⟨String.mk pre, f, w⟩] else []) ++ collectChildren cs pre := by
  rw [collect]

/-- Replacing the unique `c`-keyed child by a node whose collection is the
bumped image of the original child's collection maps the whole child
collection entrywise. -/
theorem collectChildren_setChild_bump (rest : List Char) (c : Char) (m m' : TrieNode)
    (hmap : ∀ pre' : List Char,
      collect m' pre' = (collect m pre').map (bumpEntry (String.mk (pre' ++ rest)))) :
    ∀ (cs : List (Char × TrieNode)) (pre : List Char),
      (cs.map Prod.fst).Nodup → cs.find? (fun q => q.1 == c) = some (c, m) →
      collectChildren (setChild cs c m') pre =
        (collectChildren cs pre).map (bumpEntry (String.mk (pre ++ c :: rest))) := by
  intro cs
  induction cs with
  | nil => intro pre hnd hfind; simp [List.find?] at hfind
  | cons hd tl ih =>
    intro pre hnd hfind
    obtain ⟨c₀, t₀⟩ := hd
    by_cases hc : c₀ = c
    · subst hc
      have h1 : ((c₀, t₀) :: tl).find? (fun q => q.1 == c₀) = some (c₀, t₀) :=
        List.find?_cons_of_pos _ (by simp)
      rw [h1] at hfind
      have ht₀ : t₀ = m := by
        have := Option.some.inj hfind
        simpa using congrArg Prod.snd this
      subst ht₀
      have hset : setChild ((c₀, t₀) :: tl) c₀ m' = (c₀, m') :: tl := by
        simp [setChild]
      rw [hset]
      simp only [collectChildren]
      rw [List.map_append]
      congr 1
      · rw [hmap (pre ++ [c₀])]
        rw [show (pre ++ [c₀]) ++ rest = pre ++ c₀ :: rest by simp]
      · symm
        apply map_bumpEntry_id
        intro e' he'
        obtain ⟨c', t', hmem, he''⟩ := collectChildren_origin tl pre e' he'
        have hc' : c' ≠ c₀ := by
          intro hq
          subst hq
          rw [List.map_cons, List.nodup_cons] at hnd
          exact hnd.1 (List.mem_map.mpr ⟨(c', t'), hmem, rfl⟩)
        exact collect_word_ne hc' e' he''
    · have hb : (c₀ == c) = false := beq_eq_false_iff_ne.mpr hc
      have hset : setChild ((c₀, t₀) :: tl) c m' = (c₀, t₀) :: setChild tl c m' := by
        simp [setChild, hb]
      rw [hset]
      simp only [collectChildren]
      rw [List.map_append]
      congr 1
      · symm
        apply map_bumpEntry_id
        exact fun e' he' => collect_word_ne hc e' he'
      · apply ih
        · rw [List.map_cons, List.nodup_cons] at hnd
          exact hnd.2
        · rw [List.find?_cons_of_neg _ (by simp [hb])] at hfind
          exact hfind

/-- Collecting after a weight bump: every entry is unchanged except the
entry of the bumped word, whose weight rises by one. -/
theorem collect_bumpAt (path : List Char) : ∀ (n : TrieNode) (pre : List Char), WF n →
    collect (bumpAt n path) pre =
      (collect n pre).map (bumpEntry (String.mk (pre ++ path))) := by
  induction path with
  | nil =>
    intro n pre hwf
    obtain ⟨cs, e, f, w, p⟩ := n
    rw [bumpAt_nil, collect_eq, collect_eq, List.map_append]
    congr 1
    · cases e with
      | true => simp [bumpEntry]
      | false => simp
    · symm
      apply map_bumpEntry_id
      intro e' he' heq
      have hlong := collectChildren_word_longer cs pre e' he'
      rw [heq] at hlong
      simp at hlong
  | cons c rest ih =>
    intro n pre hwf
    cases hfc : findChild n c with
    | none =>
      rw [bumpAt_cons_none rest hfc]
      symm
      apply map_bumpEntry_id
      intro e he heq
      obtain ⟨r, m, hword, hwalk, _⟩ := collect_mem_walk n pre hwf e he
      rw [heq] at hword
      have hdata : pre ++ c :: rest = pre ++ r := congrArg String.data hword
      have hr : r = c :: rest := (List.append_cancel_left hdata).symm
      rw [hr, walkPrefix_cons_none hfc] at hwalk
      simp at hwalk
    | some m =>
      have hwfm : WF m := hwf.child _ (findChild_mem hfc)
      have hfind := find?_eq_of_findChild hfc
      rw [bumpAt_cons_some rest hfc]
      obtain ⟨cs, e, f, w, p⟩ := n
      simp only [TrieNode.children, TrieNode.isEnd, TrieNode.freq, TrieNode.weight,
        TrieNode.path] at hfind ⊢
      rw [collect_eq, collect_eq, List.map_append]
      congr 1
      · cases e with
        | true => simp [bumpEntry, String.ext_iff]
        | false => simp
      · exact collectChildren_setChild_bump rest c m (bumpAt m rest)
          (fun pre' => ih m pre' hwfm) cs pre hwf.keys_nodup hfind

/-- On a well-formed trie the collected words are pairwise distinct. -/
theorem collect_words_nodup :
    ∀ (n : TrieNode) (pre : List Char), WF n → ((collect n pre).map Entry.word).Nodup :=
  collect.induct
    (fun n pre => WF n → ((collect n pre).map Entry.word).Nodup)
    (fun cs pre => (cs.map Prod.fst).Nodup → (∀ kc ∈ cs, WF kc.2) →
      ((collectChildren cs pre).map Entry.word).Nodup)
    (by
      intro cs e f w p pre ih hwf
      rw [collect_eq, List.map_append, List.nodup_append]
      refine ⟨?_, ih hwf.keys_nodup hwf.child, ?_⟩
      · cases e <;> simp
      · intro a ha hb
        cases e with
        | false => simp at ha
        | true =>
          have ha' : a = String.mk pre := by simpa using ha
          obtain ⟨e₂, he₂, hw₂⟩ := List.mem_map.mp hb
          have hlong := collectChildren_word_longer cs pre e₂ he₂
          rw [hw₂, ha'] at hlong
          simp at hlong)
    (by intro pre _ _; simp [collectChildren])
    (by
      intro c t rest pre ih1 ih2 hnd hch
      simp only [collectChildren]
      rw [List.map_append, List.nodup_append]
      rw [List.map_cons, List.nodup_cons] at hnd
      refine ⟨ih1 (hch _ (List.mem_cons_self _ _)),
        ih2 hnd.2 (fun kc hkc => hch kc (List.mem_cons_of_mem _ hkc)), ?_⟩
      intro a ha hb
      obtain ⟨e₁, he₁, hw₁⟩ := List.mem_map.mp ha
      obtain ⟨e₂, he₂, hw₂⟩ := List.mem_map.mp hb
      obtain ⟨c', t', hmem, he₂'⟩ := collectChildren_origin rest pre e₂ he₂
      have hc' : c' ≠ c := by
        intro hq
        subst hq
        exact hnd.1 (List.mem_map.mpr ⟨(c', t'), hmem, rfl⟩)
      have hp₁ := collect_word_prefix t (pre ++ [c]) e₁ he₁
      have hp₂ := collect_word_prefix t' (pre ++ [c']) e₂ he₂'
      rw [hw₁] at hp₁
      rw [hw₂] at hp₂
      have hor := List.prefix_or_prefix_of_prefix hp₁ hp₂
      have heq : pre ++ [c] = pre ++ [c'] := by
        rcases hor with h | h
        · exact h.eq_of_length (by simp)
        · exact (h.eq_of_length (by simp)).symm
      have := List.append_cancel_left heq
      simp at this
      exact hc' this.symm)

/-!
Rank machinery: the position of a word in the stably sorted output is the
number of strictly higher-scored entries plus the earlier equal-scored
ones, so raising the word's own score can only move it forward.
-/

theorem sum_map_add {α : Type} (l : List α) (f g : α → Nat) :
    (l.map (fun a => f a + g a)).sum = (l.map f).sum + (l.map g).sum := by
  induction l with
  | nil => rfl
  | cons a l ih =>
    simp only [List.map_cons, List.sum_cons, ih]
    omega

theorem sum_map_indicator (vs : List Nat) (a : Nat) :
    (vs.map (fun v => if a = v then 1 else 0)).sum = vs.count a := by
  induction vs with
  | nil => simp
  | cons v vs ih =>
    by_cases h : a = v
    · subst h
      simp [ih, List.count_cons]
      omega
    · simp [h, ih, List.count_cons]

theorem sum_bucket_counts (vs : List Nat) (s₀ : Nat) (hnd : vs.Nodup)
    (hgt : ∀ v ∈ vs, s₀ < v) :
    ∀ l : List Entry, (∀ e ∈ l, s₀ < score e → score e ∈ vs) →
      (vs.map (fun v => l.countP (fun e => decide (score e = v)))).sum =
        l.countP (fun e => decide (s₀ < score e)) := by
  intro l
  induction l with
  | nil =>
    intro _
    simp
  | cons x l ih =>
    intro hmem
    have hm' : ∀ e ∈ l, s₀ < score e → score e ∈ vs :=
      fun e he => hmem e (List.mem_cons_of_mem _ he)
    have hstep : ∀ v : Nat, (x :: l).countP (fun e => decide (score e = v)) =
        l.countP (fun e => decide (score e = v)) + (if score x = v then 1 else 0) := by
      intro v
      rw [List.countP_cons]
      by_cases h : score x = v <;> simp [h]
    rw [List.map_congr_left (fun v _ => hstep v),
      sum_map_add vs (fun v => l.countP (fun e => decide (score e = v)))
        (fun v => if score x = v then 1 else 0),
      ih hm', sum_map_indicator, List.countP_cons]
    by_cases hx : s₀ < score x
    · rw [List.count_eq_one_of_mem hnd (hmem x (List.mem_cons_self _ _) hx)]
      simp [hx]
    · have hnot : score x ∉ vs := fun hin => hx (hgt _ hin)
      rw [List.count_eq_zero_of_not_mem hnot]
      simp [hx]

theorem findIdx_append_no_left (p : Entry → Bool) (l₁ l₂ : List Entry)
    (h : ∀ a ∈ l₁, p a = false) :
    (l₁ ++ l₂).findIdx p = l₁.length + l₂.findIdx p := by
  induction l₁ with
  | nil => simp
  | cons a l ih =>
    rw [List.cons_append, List.findIdx_cons, h a (List.mem_cons_self _ _)]
    rw [ih (fun b hb => h b (List.mem_cons_of_mem _ hb))]
    simp only [cond_false, List.length_cons]
    omega

theorem scoresDesc_sorted (l : List Entry) : List.Sorted (· ≥ ·) (scoresDesc l) :=
  List.sorted_insertionSort _ _

theorem scoresDesc_nodup (l : List Entry) : (scoresDesc l).Nodup :=
  ((List.perm_insertionSort _ _).nodup_iff).mpr (List.nodup_dedup _)

theorem mem_scoresDesc {l : List Entry} {s : Nat} : s ∈ scoresDesc l ↔ s ∈ l.map score := by
  unfold scoresDesc
  rw [(List.perm_insertionSort _ _).mem_iff, List.mem_dedup]

theorem sorted_nodup_split {S : List Nat} {s₀ : Nat} (hS : List.Sorted (· ≥ ·) S)
    (hnd : S.Nodup) (hmem : s₀ ∈ S) :
    ∃ S₁ S₂, S = S₁ ++ s₀ :: S₂ ∧ (∀ v ∈ S₁, s₀ < v) ∧ (∀ v ∈ S₂, v < s₀) := by
  obtain ⟨S₁, S₂, rfl⟩ := List.append_of_mem hmem
  have hp := List.pairwise_append.mp hS
  have hq := List.nodup_append.mp hnd
  refine ⟨S₁, S₂, rfl, ?_, ?_⟩
  · intro v hv
    have hge : s₀ ≤ v := hp.2.2 v hv s₀ (List.mem_cons_self _ _)
    have hne : v ≠ s₀ := by
      intro he
      exact hq.2.2 hv (he ▸ List.mem_cons_self _ _)
    omega
  · intro v hv
    have hle : v ≤ s₀ := (List.pairwise_cons.mp hp.2.1).1 v hv
    have hne : v ≠ s₀ := by
      intro he
      exact (List.nodup_cons.mp hq.2.1).1 (he ▸ hv)
    omega

theorem autocomplete_eq_none {t : Trie} {pre : String}
    (h : walkPrefix t.root (lowerChars pre) = none) : t.autocomplete pre = [] := by
  simp only [Trie.autocomplete]
  rw [h]

theorem autocomplete_eq_some {t : Trie} {pre : String} {n : TrieNode}
    (h : walkPrefix t.root (lowerChars pre) = some n) :
    t.autocomplete pre = sortEntries (collect n (lowerChars pre)) := by
  simp only [Trie.autocomplete]
  rw [h]

/-- Position of the unique entry of word `W` in the stable descending-score
sort: the number of strictly higher-scored entries plus the number of
equal-scored entries occurring earlier. -/
theorem rank_sortEntries_split (A B : List Entry) (e₀ : Entry) (W : String)
    (hw : e₀.word = W) (hA : ∀ a ∈ A, a.word ≠ W) (hB : ∀ b ∈ B, b.word ≠ W) :
    rankOf (sortEntries (A ++ e₀ :: B)) W =
      (A ++ e₀ :: B).countP (fun e => decide (score e₀ < score e)) +
        A.countP (fun e => decide (score e = score e₀)) := by
  have hmem₀ : score e₀ ∈ scoresDesc (A ++ e₀ :: B) :=
    mem_scoresDesc.mpr (List.mem_map_of_mem _ (by simp))
  obtain ⟨S₁, S₂, hsplit, hgt, hlt⟩ :=
    sorted_nodup_split (scoresDesc_sorted (A ++ e₀ :: B)) (scoresDesc_nodup _) hmem₀
  unfold rankOf sortEntries
  rw [hsplit, List.flatMap_append, List.flatMap_cons]
  have hnomatch₁ : ∀ a ∈ S₁.flatMap
      (fun s => (A ++ e₀ :: B).filter (fun e => decide (score e = s))),
      (a.word == W) = false := by
    intro a ha
    obtain ⟨v, hv, ha'⟩ := List.mem_flatMap.mp ha
    have hal := List.mem_filter.mp ha'
    have hscore : score a = v := by simpa using hal.2
    refine beq_eq_false_iff_ne.mpr ?_
    intro heq
    rcases List.mem_append.mp hal.1 with hmem | hmem
    · exact hA a hmem heq
    · rcases List.mem_cons.mp hmem with hmem' | hmem'
      · rw [hmem'] at hscore
        have := hgt v hv
        omega
      · exact hB a hmem' heq
  rw [findIdx_append_no_left _ _ _ hnomatch₁]
  have hfilter : (A ++ e₀ :: B).filter (fun e => decide (score e = score e₀)) =
      A.filter (fun e => decide (score e = score e₀)) ++
        e₀ :: B.filter (fun e => decide (score e = score e₀)) := by
    rw [List.filter_append, List.filter_cons]
    simp
  rw [hfilter, List.append_assoc, List.cons_append]
  have hnomatchA : ∀ a ∈ A.filter (fun e => decide (score e = score e₀)),
      (a.word == W) = false := by
    intro a ha
    exact beq_eq_false_iff_ne.mpr (hA a (List.mem_filter.mp ha).1)
  rw [findIdx_append_no_left _ _ _ hnomatchA]
  have hhead : List.findIdx (fun e => e.word == W)
      (e₀ :: (B.filter (fun e => decide (score e = score e₀)) ++
        S₂.flatMap (fun s => (A ++ e₀ :: B).filter (fun e => decide (score e = s))))) = 0 := by
    rw [List.findIdx_cons]
    have : (e₀.word == W) = true := by rw [hw]; simp
    rw [this]
    rfl
  rw [hhead]
  have hlen : (S₁.flatMap
      (fun s => (A ++ e₀ :: B).filter (fun e => decide (score e = s)))).length =
      (A ++ e₀ :: B).countP (fun e => decide (score e₀ < score e)) := by
    rw [List.length_flatMap]
    have hconv : S₁.map (List.length ∘ fun s =>
        (A ++ e₀ :: B).filter (fun e => decide (score e = s))) =
        S₁.map (fun s => (A ++ e₀ :: B).countP (fun e => decide (score e = s))) := by
      apply List.map_congr_left
      intro v _
      show ((A ++ e₀ :: B).filter (fun e => decide (score e = v))).length = _
      rw [List.countP_eq_length_filter]
    rw [hconv]
    apply sum_bucket_counts S₁ (score e₀)
    · have := scoresDesc_nodup (A ++ e₀ :: B)
      rw [hsplit, List.nodup_append] at this
      exact this.1
    · exact hgt
    · intro e he hlt'
      have hin : score e ∈ scoresDesc (A ++ e₀ :: B) :=
        mem_scoresDesc.mpr (List.mem_map_of_mem _ he)
      rw [hsplit] at hin
      rcases List.mem_append.mp hin with h | h
      · exact h
      · rcases List.mem_cons.mp h with h' | h'
        · omega
        · have := hlt _ h'
          omega
  have hlenA : (A.filter (fun e => decide (score e = score e₀))).length =
      A.countP (fun e => decide (score e = score e₀)) := by
    rw [List.countP_eq_length_filter]
  rw [hlen, hlenA]
  omega

theorem countP_split_le (A : List Entry) (p q r : Entry → Bool)
    (h : ∀ e ∈ A, (if p e then 1 else 0) + (if q e then 1 else 0) ≤
      (if r e then 1 else 0)) :
    A.countP p + A.countP q ≤ A.countP r := by
  induction A with
  | nil => simp
  | cons a A ih =>
    simp only [List.countP_cons]
    have hh := h a (List.mem_cons_self _ _)
    have ht := ih (fun e he => h e (List.mem_cons_of_mem _ he))
    by_cases hp : p a <;> by_cases hq : q a <;> by_cases hr : r a <;>
      simp [hp, hq, hr] at hh ⊢ <;> omega

theorem countP_bump_A (A : List Entry) (s : Nat) :
    A.countP (fun e => decide (s + 1 < score e)) +
        A.countP (fun e => decide (score e = s + 1)) ≤
      A.countP (fun e => decide (s < score e)) := by
  apply countP_split_le
  intro e _
  by_cases h1 : s + 1 < score e
  · have h2 : ¬ (score e = s + 1) := by omega
    have hr : s < score e := by omega
    simp [h1, h2, hr]
  · by_cases h2 : score e = s + 1
    · have hr : s < score e := by omega
      simp [h1, h2, hr]
    · by_cases hr : s < score e <;> simp [h1, h2, hr]

theorem rank_bump_le_split (A B : List Entry) (e₀ : Entry) (W : String)
    (hw : e₀.word = W) (hA : ∀ a ∈ A, a.word ≠ W) (hB : ∀ b ∈ B, b.word ≠ W) :
    rankOf (sortEntries (A ++ bumpEntry W e₀ :: B)) W ≤
      rankOf (sortEntries (A ++ e₀ :: B)) W := by
  have hw' : (bumpEntry W e₀).word = W := by simp [bumpEntry, hw]
  have hs' : score (bumpEntry W e₀) = score e₀ + 1 := by
    simp [bumpEntry, hw, score]
    omega
  rw [rank_sortEntries_split A B e₀ W hw hA hB,
    rank_sortEntries_split A B (bumpEntry W e₀) W hw' hA hB]
  simp only [hs', List.countP_append, List.countP_cons]
  have h1 := countP_bump_A A (score e₀)
  have h2 : B.countP (fun e => decide (score e₀ + 1 < score e)) ≤
      B.countP (fun e => decide (score e₀ < score e)) := by
    apply List.countP_mono_left
    intro e _ hp
    simp at hp ⊢
    omega
  have h3 : (if decide (score e₀ + 1 < score (bumpEntry W e₀)) then 1 else 0) ≤ 1 := by
    split <;> omega
  simp only [decide_eq_true_eq]
  have hfalse : ¬ (score e₀ < score e₀) := lt_irrefl _
  simp [hs', hfalse]
  omega

/-- Bumping the weight of the (unique) entry of `W` never moves `W` to a
later position in the sorted output. -/
theorem rank_map_bump_le (l : List Entry) (W : String)
    (hnd : (l.map Entry.word).Nodup) :
    rankOf (sortEntries (l.map (bumpEntry W))) W ≤ rankOf (sortEntries l) W := by
  by_cases hW : W ∈ l.map Entry.word
  · obtain ⟨e₀, he₀, hword⟩ := List.mem_map.mp hW
    obtain ⟨A, B, rfl⟩ := List.append_of_mem he₀
    rw [List.map_append, List.map_cons, List.nodup_append] at hnd
    have hA : ∀ a ∈ A, a.word ≠ W := by
      intro a ha heq
      have hnotin := hnd.2.2 (List.mem_map.mpr ⟨a, ha, rfl⟩)
      apply hnotin
      rw [heq, hword]
      exact List.mem_cons_self _ _
    have hB : ∀ b ∈ B, b.word ≠ W := by
      intro b hb heq
      have hcons := (List.nodup_cons.mp hnd.2.1).1
      apply hcons
      rw [hword]
      exact List.mem_map.mpr ⟨b, hb, heq⟩
    rw [List.map_append, List.map_cons, map_bumpEntry_id hA, map_bumpEntry_id hB]
    exact rank_bump_le_split A B e₀ W hword hA hB
  · have hall : ∀ e ∈ l, e.word ≠ W :=
      fun e he heq => hW (List.mem_map.mpr ⟨e, he, heq⟩)
    rw [map_bumpEntry_id hall]

/-- Claim C9: a selection event on word W (weight bump at W's node, all
other frequencies and weights fixed) never moves W to a later position in
any `autocomplete` output; and no operation (`insert` or a selection bump)
ever decreases the weight stored on any existing node. -/
theorem C9_weight_monotone :
    (∀ (t : Trie) (w p : String), WF t.root →
        rankOf ((t.bumpWeight w).autocomplete p) (lowerStr w) ≤
          rankOf (t.autocomplete p) (lowerStr w)) ∧
      (∀ (t : Trie) (w : String) (f : Nat) (q : String) (m : TrieNode),
        t.getNode q = some m →
          ∃ m', (t.insert w f).getNode q = some m' ∧ m.weight ≤ m'.weight) ∧
      (∀ (t : Trie) (w q : String) (m : TrieNode),
        t.getNode q = some m →
          ∃ m', (t.bumpWeight w).getNode q = some m' ∧ m.weight ≤ m'.weight) := by
  refine ⟨?_, ?_, ?_⟩
  · intro t w p hwf
    by_cases hpre : lowerChars p <+: lowerChars w
    · obtain ⟨r, hr⟩ := hpre
      cases hwp : walkPrefix t.root (lowerChars p) with
      | none =>
        have h1 : (t.bumpWeight w).autocomplete p = [] := by
          apply autocomplete_eq_none
          show walkPrefix (bumpAt t.root (lowerChars w)) (lowerChars p) = none
          rw [← hr, walk_bumpAt_pre, hwp]
          rfl
        rw [h1, autocomplete_eq_none hwp]
      | some n₀ =>
        have hwf₀ : WF n₀ := wf_walkPrefix _ hwf hwp
        have h1 : (t.bumpWeight w).autocomplete p =
            sortEntries ((collect n₀ (lowerChars p)).map (bumpEntry (lowerStr w))) := by
          have hwalk : walkPrefix (t.bumpWeight w).root (lowerChars p) =
              some (bumpAt n₀ r) := by
            show walkPrefix (bumpAt t.root (lowerChars w)) (lowerChars p) = _
            rw [← hr, walk_bumpAt_pre, hwp]
            rfl
          rw [autocomplete_eq_some hwalk, collect_bumpAt r n₀ (lowerChars p) hwf₀]
          rw [show String.mk (lowerChars p ++ r) = lowerStr w by rw [hr]; rfl]
        rw [h1, autocomplete_eq_some hwp]
        exact rank_map_bump_le _ _ (collect_words_nodup n₀ (lowerChars p) hwf₀)
    · have hsame : (t.bumpWeight w).autocomplete p = t.autocomplete p := by
        simp only [Trie.autocomplete]
        rw [show walkPrefix (t.bumpWeight w).root (lowerChars p) =
            walkPrefix t.root (lowerChars p) from walk_bumpAt_not_pre _ _ _ hpre]
      rw [hsame]
  · intro t w f q m hm
    obtain ⟨m', hm', _, hwt⟩ := walk_insertGo_pres (lowerChars q) t.root (lowerChars w) [] f w m hm
    exact ⟨m', hm', le_of_eq hwt.symm⟩
  · intro t w q m hm
    by_cases hpre : lowerChars q <+: lowerChars w
    · obtain ⟨r, hr⟩ := hpre
      refine ⟨bumpAt m r, ?_, bumpAt_weight_ge r m⟩
      have hm' : walkPrefix t.root (lowerChars q) = some m := hm
      show walkPrefix (bumpAt t.root (lowerChars w)) (lowerChars q) = _
      rw [← hr, walk_bumpAt_pre, hm']
      rfl
    · refine ⟨m, ?_, le_refl _⟩
      have hm' : walkPrefix t.root (lowerChars q) = some m := hm
      show walkPrefix (bumpAt t.root (lowerChars w)) (lowerChars q) = some m
      rw [walk_bumpAt_not_pre _ _ _ hpre]
      exact hm'

theorem C9_weight_monotone_witness :
    (WF (buildTrie ["app", "apple"]).root ∧
        rankOf (((buildTrie ["app", "apple"]).bumpWeight "apple").autocomplete "app")
            (lowerStr "apple") ≤
          rankOf ((buildTrie ["app", "apple"]).autocomplete "app") (lowerStr "apple")) ∧
      ((buildTrie ["ab"]).getNode "ab" = some (.mk [] true 1 0 "ab") ∧
        ∃ m', ((buildTrie ["ab"]).insert "ab" 1).getNode "ab" = some m' ∧
          (TrieNode.mk [] true 1 0 "ab").weight ≤ m'.weight) ∧
      ((buildTrie ["ab"]).getNode "ab" = some (.mk [] true 1 0 "ab") ∧
        ∃ m', ((buildTrie ["ab"]).bumpWeight "ab").getNode "ab" = some m' ∧
          (TrieNode.mk [] true 1 0 "ab").weight ≤ m'.weight) :=
  ⟨⟨wf_buildTrie _,
      C9_weight_monotone.1 (buildTrie ["app", "apple"]) "apple" "app" (wf_buildTrie _)⟩,
    ⟨rfl, C9_weight_monotone.2.1 (buildTrie ["ab"]) "ab" 1 "ab" (.mk [] true 1 0 "ab") rfl⟩,
    ⟨rfl, C9_weight_monotone.2.2 (buildTrie ["ab"]) "ab" "ab" (.mk [] true 1 0 "ab") rfl⟩⟩

end TrieDemo
